import Mathlib

/-
  Verification of the Krita GaryC Bridge conversion core
  (src/krita_garyc_bridge/krita_garyc_bridge.py).

  The development shallowly embeds the pure conversion functions of the
  plugin: the base-36 coordinate codec, the SVG path mini-interpreter,
  the rectangle and ellipse shape expanders, the transform applier, the
  bounds/merge filter, the payload encoder/decoder, and the stroke
  simplifier.  Python floats are modelled as exact rationals (the claims
  under study do not depend on IEEE rounding), except where the source
  calls transcendental library functions (math.cos, math.sin, math.atan2,
  math.sqrt); those places are modelled over the reals or kept parametric
  in the numeric operations.  Python lists are mutable objects; where the
  source aliases them (the pen list inside compile_path) the embedding
  uses an explicit store of cells indexed by allocation order, so that
  in-place updates of a list that was already appended to a subline are
  reproduced faithfully.
-/

set_option maxHeartbeats 1000000

namespace KGB

/-- Python runtime errors that the embedded code can raise. -/
inductive PyErr where
  | keyError
  | valueError
  | indexError
  | attributeError
  deriving DecidableEq

/-- `digit` from `generate_base36`: `str(d)` for `d < 10`, else `chr(d + 87)`. -/
def b36digit (d : Nat) : String :=
  if d < 10 then toString d else String.singleton (Char.ofNat (d + 87))

/-- `single_digits = [(i, digit(i)) for i in range(36)]`. -/
def single_digits : List (Nat × String) :=
  (List.range 36).map (fun i => (i, b36digit i))

/-- The `ENCODER` table built by `generate_base36`.  The source fills a
preallocated 1296-slot array with `encoder[36*i + j] = first + second`
iterating `i`, then `j`, in increasing order, which writes every index
exactly once in index order; the flattened nested map below produces the
same list. -/
def ENCODER : List String :=
  (single_digits.map (fun p => single_digits.map (fun q => p.2 ++ q.2))).flatten

/-- The association list underlying the `DECODER` dict built by
`generate_base36`: entry `(first + second, 36*i + j)` for each digit pair,
in the same iteration order.  All keys are distinct, so dict lookup agrees
with first-match lookup in this list. -/
def DECODER_LIST : List (String × Nat) :=
  (single_digits.map (fun p =>
    single_digits.map (fun q => (p.2 ++ q.2, 36 * p.1 + q.1)))).flatten

/-- The `DECODER` dict as a lookup function (`None` models a KeyError). -/
def DECODER (s : String) : Option Nat :=
  DECODER_LIST.lookup s

/-- Specification-side alphabet for base-36 codes: digits 0-9 then a-z. -/
def specB36Char (k : Nat) : Char :=
  if k < 10 then Char.ofNat (48 + k) else Char.ofNat (87 + k)

/-- Specification-side unique 2-character base-36 representation of
`n ∈ [0, 1295]`, most-significant symbol first. -/
def specB36 (n : Nat) : String :=
  String.mk [specB36Char (n / 36), specB36Char (n % 36)]

/-- A character of the base-36 alphabet `0-9a-z`; this is also the character
class `[a-z\d]` of `SPLITTER_P` (restricted to ASCII: the payloads under
study are ASCII, so the Unicode digits that Python's `\d` would also admit
are not modelled). -/
def isB36Char (c : Char) : Bool :=
  (48 ≤ c.toNat && c.toNat ≤ 57) || (97 ≤ c.toNat && c.toNat ≤ 122)

/-- Numeric value of a base-36 alphabet character. -/
def b36val (c : Char) : Nat :=
  if c.toNat ≤ 57 then c.toNat - 48 else c.toNat - 87

/-- A valid 2-character base-36 combination. -/
def validB36Pair (s : String) : Prop :=
  s.data.length = 2 ∧ ∀ c ∈ s.data, isB36Char c = true

instance (s : String) : Decidable (validB36Pair s) :=
  inferInstanceAs (Decidable (s.data.length = 2 ∧ ∀ c ∈ s.data, isB36Char c = true))

/-! ### String scanners: str.split, the splitter/float regexes -/

/-- ASCII whitespace recognised by Python's str.split() with no argument. -/
def pyWs (c : Char) : Bool :=
  c = ' ' || c = '\t' || c = '\n' || c = '\r' || c = '\x0b' || c = '\x0c'

/-- Python `data.split()`: split on runs of whitespace, no empty pieces. -/
def pySplit (s : String) : List (List Char) :=
  (s.data.splitOnP pyWs).filter (fun l => !l.isEmpty)

/-- Fuel-bounded worker for `findall4`: one unit of fuel per character
position; every step consumes at least one character, so the fuel is
never exhausted. -/
def findall4F (fuel : ℕ) (cs : List Char) : List (List Char) :=
  match fuel, cs with
  | 0, _ => []
  | fuel + 1, c1 :: c2 :: c3 :: c4 :: rest =>
    if isB36Char c1 && isB36Char c2 && isB36Char c3 && isB36Char c4 then
      [c1, c2, c3, c4] :: findall4F fuel rest
    else findall4F fuel (c2 :: c3 :: c4 :: rest)
  | _ + 1, _ => []

/-- `SPLITTER_P.findall`: left-to-right scan for non-overlapping matches of
`[a-z\d]{4}`; on failure the scan advances one character. -/
def findall4 (cs : List Char) : List (List Char) :=
  findall4F cs.length cs

/-- Decimal value of a digit run. -/
def natOfDigits (ds : List Char) : ℕ :=
  ds.foldl (fun a c => 10 * a + (c.toNat - 48)) 0

/-- Fuel-bounded worker producing the decimal digit characters of a
natural number, most significant first (one unit of fuel per digit; the
fuel `n + 1` of `decDigits` is always enough). -/
def decDigitsF : ℕ → ℕ → List Char → List Char
  | 0, _, acc => acc
  | fuel + 1, n, acc =>
    let acc2 := Char.ofNat (48 + n % 10) :: acc
    if n / 10 = 0 then acc2 else decDigitsF fuel (n / 10) acc2

/-- The decimal digit characters of a natural number: what Python's
f-string `\x7bn\x7d` interpolation writes for a non-negative int. -/
def decDigits (n : ℕ) : List Char :=
  decDigitsF (n + 1) n []

/-- Matches `FLOAT_P` = `[-+]?\d+\.?\d*(?:e[-+]?\d+)?` at the head of `cs`
(`ic` allows an upper-case exponent letter, for the re.I-compiled copy of
the pattern inside `COMMAND_ARGV_P`).  Returns the exact rational value of
the matched literal together with the number of characters consumed, or
`none` when the pattern does not match here.  IEEE-double rounding of the
parsed literal is idealised away; the payload-roundtrip inputs are small
integers, which doubles represent exactly. -/
def matchFloat (ic : Bool) (cs : List Char) : Option (ℚ × ℕ) :=
  let sgn : ℚ × ℕ × List Char :=
    if cs.head? = some '-' then (-1, 1, cs.tail)
    else if cs.head? = some '+' then (1, 1, cs.tail)
    else (1, 0, cs)
  let ds := sgn.2.2.takeWhile Char.isDigit
  if ds.isEmpty then none else
  let cs2 := sgn.2.2.drop ds.length
  let frac : List Char × ℕ × List Char :=
    if cs2.head? = some '.' then
      (cs2.tail.takeWhile Char.isDigit, 1,
        cs2.tail.drop (cs2.tail.takeWhile Char.isDigit).length)
    else ([], 0, cs2)
  let expo : ℤ × ℕ :=
    if frac.2.2.head? = some 'e' ∨ (ic = true ∧ frac.2.2.head? = some 'E') then
      let r := frac.2.2.tail
      let esgn : ℤ × ℕ × List Char :=
        if r.head? = some '-' then (-1, 1, r.tail)
        else if r.head? = some '+' then (1, 1, r.tail)
        else (1, 0, r)
      let eds := esgn.2.2.takeWhile Char.isDigit
      if eds.isEmpty then (0, 0)
      else (esgn.1 * natOfDigits eds, 1 + esgn.2.1 + eds.length)
    else (0, 0)
  let val : ℚ :=
    sgn.1 * ((natOfDigits ds : ℚ) + (natOfDigits frac.1 : ℚ) / 10 ^ frac.1.length)
      * (10 : ℚ) ^ expo.1
  some (val, sgn.2.1 + ds.length + frac.2.1 + frac.1.length + expo.2)

/-- Fuel-bounded worker for `scanFloats`: the fuel, one unit per character
position, can never run out because every step consumes at least one
character (a matched literal has at least one digit). -/
def scanFloatsF (fuel : ℕ) (cs : List Char) : List ℚ :=
  match fuel, cs with
  | 0, _ => []
  | _ + 1, [] => []
  | fuel + 1, c :: rest =>
    match matchFloat false (c :: rest) with
    | some (q, n) => q :: scanFloatsF fuel (rest.drop (n - 1))
    | none => scanFloatsF fuel rest

/-- `FLOAT_P.findall`: all float literals in a string (used on transform
attributes). -/
def scanFloats (cs : List Char) : List ℚ :=
  scanFloatsF cs.length cs

/-- A token of `COMMAND_ARGV_P.findall`: a command letter or a number. -/
inductive PTok where
  | cmd (c : Char)
  | num (q : ℚ)
  deriving DecidableEq

/-- The command letters `(C|M|L|V|H|Z)` under re.I. -/
def isPathCmdChar (c : Char) : Bool :=
  (['C', 'M', 'L', 'V', 'H', 'Z', 'c', 'm', 'l', 'v', 'h', 'z']).contains c

/-- Fuel-bounded worker for `scanPathToks` (fuel as in `scanFloatsF`). -/
def scanPathToksF (fuel : ℕ) (cs : List Char) : List PTok :=
  match fuel, cs with
  | 0, _ => []
  | _ + 1, [] => []
  | fuel + 1, c :: rest =>
    if isPathCmdChar c then PTok.cmd c :: scanPathToksF fuel rest
    else match matchFloat true (c :: rest) with
      | some (q, n) => PTok.num q :: scanPathToksF fuel (rest.drop (n - 1))
      | none => scanPathToksF fuel rest

/-- `COMMAND_ARGV_P.findall`: scan for command letters or float literals;
the command alternative is tried first at each position, and on failure
the scan advances one character. -/
def scanPathToks (cs : List Char) : List PTok :=
  scanPathToksF cs.length cs

/-- Python `float(s)`: strip surrounding whitespace, then an optional sign,
a mantissa with at least one digit on either side of an optional point,
and an optional exponent; the whole string must be consumed, else
ValueError.  (The `inf`/`nan` spellings and digit-group underscores that
float() also accepts never occur in this program's inputs and are not
modelled.) -/
def pyfloat (s : String) : Except PyErr ℚ :=
  let cs := ((s.data.dropWhile pyWs).reverse.dropWhile pyWs).reverse
  let sgn : ℚ × List Char :=
    match cs with
    | '-' :: r => (-1, r)
    | '+' :: r => (1, r)
    | _ => (1, cs)
  let ip := sgn.2.takeWhile Char.isDigit
  let cs2 := sgn.2.drop ip.length
  let frac : List Char × List Char :=
    match cs2 with
    | '.' :: r => (r.takeWhile Char.isDigit, r.drop (r.takeWhile Char.isDigit).length)
    | _ => ([], cs2)
  if ip.isEmpty && frac.1.isEmpty then Except.error PyErr.valueError else
  let expo : Except PyErr (ℤ × List Char) :=
    match frac.2 with
    | e :: r =>
      if e = 'e' || e = 'E' then
        let esgn : ℤ × List Char :=
          match r with
          | '-' :: r2 => (-1, r2)
          | '+' :: r2 => (1, r2)
          | _ => (1, r)
        let eds := esgn.2.takeWhile Char.isDigit
        if eds.isEmpty then Except.error PyErr.valueError
        else Except.ok (esgn.1 * natOfDigits eds, esgn.2.drop eds.length)
      else Except.error PyErr.valueError
    | [] => Except.ok (0, [])
  match expo with
  | Except.error err => Except.error err
  | Except.ok (exv, rest) =>
    if rest.isEmpty then
      Except.ok (sgn.1 * ((natOfDigits ip : ℚ) + (natOfDigits frac.1 : ℚ) / 10 ^ frac.1.length)
        * (10 : ℚ) ^ exv)
    else Except.error PyErr.valueError

/-- Python's built-in round() to an integer: round half to even. -/
def pyround {α : Type} [LinearOrderedField α] [FloorRing α] (x : α) : ℤ :=
  let f := ⌊x⌋
  let r := x - (f : α)
  if r < 1 / 2 then f
  else if 1 / 2 < r then f + 1
  else if f % 2 = 0 then f else f + 1

/-! ### The payload decoder data_to_svg and its parsed element list -/

/-- One pair `"{x} {y}"` of `data_to_svg`: decimal decodings of the two
base-36 codes of a point token, one space between them.  The dict accesses
`DECODER[pos[0:2]]` and `DECODER[pos[2:4]]` cannot fail because the
splitter pattern only yields alphabet characters; the lookup default is
never used. -/
def decodePair (tok : List Char) : String :=
  String.mk (decDigits ((DECODER (String.mk (tok.take 2))).getD 0)) ++ " " ++
    String.mk (decDigits ((DECODER (String.mk (tok.drop 2))).getD 0))

/-- The `d` attribute `data_to_svg` writes for one stroke: `M` then the
decoded pairs joined with `L`. -/
def strokeD (tok : List Char) : String :=
  "M" ++ String.intercalate "L" ((findall4 tok).map decodePair)

/-- The attribute dict of each path element `data_to_svg` emits. -/
def dataPathAttrib (tok : List Char) : List (String × String) :=
  [("fill", "none"), ("stroke", "#000000"), ("stroke-width", "3"),
   ("stroke-linejoin", "round"), ("d", strokeD tok)]

/-- `data_to_svg`: the markup string itself, whitespace of the source
f-string literal reproduced verbatim. -/
def data_to_svg (data : String) : String :=
  "<svg>" ++ String.join ((pySplit data).map (fun tok =>
    "<path fill=\"none\"\n        stroke=\"#000000\"\n        stroke-width=\"3\"\n        stroke-linejoin=\"round\"\n        d=\"" ++ strokeD tok ++ "\"/>")) ++ "</svg>"

/-- A parsed markup element: tag (as ElementTree reports it, i.e. the
namespace URI in braces prepended when the document declares one) and the
attribute dict. -/
structure Elem where
  tag : String
  attrib : List (String × String)
  deriving DecidableEq

/-- The child elements that `xml.etree.ElementTree.fromstring` yields on
`data_to_svg`'s output: one element per whitespace-separated stroke of the
payload, with the five literal attributes; the markup declares no XML
namespace, so the tag is the bare `path`. -/
def data_to_svg_tree (data : String) : List Elem :=
  (pySplit data).map (fun tok => { tag := "path", attrib := dataPathAttrib tok })

/-- Requalifies every tag with the SVG namespace, as ElementTree reports
tags when the markup carries xmlns="http://www.w3.org/2000/svg" (Krita's
serializer, the producer `svg_to_data` was written against, always does). -/
def withSvgNamespace (es : List Elem) : List Elem :=
  es.map (fun e => { e with tag := "\x7bhttp://www.w3.org/2000/svg\x7d" ++ e.tag })

/-! ### The namespace-stripping regex -/

/-- An ASCII `\w` character. -/
def isWordChar (c : Char) : Bool :=
  c.isAlphanum || c = '_'

/-- `NAMESPACE_P.match(tag)` followed by `.group("tag")`, as an Option
(`none` models `match` returning None, on which the source's `.group`
raises AttributeError).  The pattern is a literal opening brace, a greedy
non-empty run of non-newline characters, a closing brace, then captured
word characters: the brace position used is the largest `k >= 1` whose
preceding run is newline-free and which is followed by a word character. -/
def namespace_match (tag : String) : Option String :=
  match tag.data with
  | '\x7b' :: rest =>
    match ((List.range rest.length).filter (fun k =>
        decide (1 ≤ k) && decide (rest.getD k ' ' = '\x7d') &&
        decide (k + 1 < rest.length) && isWordChar (rest.getD (k + 1) ' ') &&
        !(rest.take k).any (fun c => c = '\n'))).getLast? with
    | some k => some (String.mk ((rest.drop (k + 1)).takeWhile isWordChar))
    | none => none
  | _ => none

/-! ### The path interpreter compile_path -/

/-- `COMMAND_ARGC` dict: fixed argument count per command letter. -/
def COMMAND_ARGC (c : Char) : Option ℕ :=
  if c = 'C' then some 6
  else if c = 'M' then some 2
  else if c = 'L' then some 2
  else if c = 'V' then some 1
  else if c = 'H' then some 1
  else if c = 'Z' then some 0
  else none

/-- Interpreter state for `compile_path`.  Python lists are mutable heap
objects, and the source aliases the `pen` list into the current subline
(`H`/`V` assign into the same list object that was appended before), so
points live in a store of cells indexed by allocation order; `subline` and
`line` hold cell references, dereferenced only after the scan. -/
structure PathState where
  store : List (ℚ × ℚ)
  pen : ℕ
  line : List (List ℕ)
  subline : List ℕ
  command : Option Char
  previous_command : Option Char
  args : List ℚ

/-- `pen = [0, 0]`, everything else empty (`command`/`previous_command`
are the source's empty strings). -/
def initPathState : PathState :=
  { store := [(0, 0)], pen := 0, line := [], subline := [],
    command := none, previous_command := none, args := [] }

/-- The Bernstein sample of the `C` branch for parameter `t`: starting from
`pen = [0, 0]`, accumulate `quotients[i] * (1-t)^(3-i) * t^i` times
`args[2i], args[2i+1]` for i in 0..3. -/
def bezierPoint (args8 : List ℚ) (t : ℚ) : ℚ × ℚ :=
  (List.range 4).foldl (fun p i =>
    let factor := ([1, 3, 3, 1].getD i 0 : ℚ) * (1 - t) ^ (3 - i) * t ^ i
    (p.1 + factor * args8.getD (2 * i) 0, p.2 + factor * args8.getD (2 * i + 1) 0))
    (0, 0)

/-- Executes one fully-argumented command (source lines 165-207):
relative-to-absolute conversion, the append-pen-after-MoveTo rule, then
the per-command branch, then the reset of `command`/`args`. -/
def execCommand (s : PathState) (c0 : Char) : Except PyErr PathState :=
  let penv := s.store.getD s.pen (0, 0)
  let args := if c0.isLower then
      s.args.enum.map (fun ia => ia.2 + (if ia.1 % 2 = 0 then penv.1 else penv.2))
    else s.args
  let c := c0.toUpper
  let s1 := if s.previous_command = some 'M' ∧ c ≠ 'M' then
      { s with subline := s.subline ++ [s.pen] } else s
  let reset : PathState → PathState := fun st =>
    { st with command := none, args := [], previous_command := some c }
  match c with
  | 'C' =>
    let args8 := [penv.1, penv.2] ++ args
    let samples := (List.range 1001).map (fun time => bezierPoint args8 ((time : ℚ) / 1000))
    let ids := (List.range 1001).map (fun k => s1.store.length + k)
    Except.ok (reset { s1 with
      store := s1.store ++ samples ++ [(args8.getD 6 0, args8.getD 7 0)],
      subline := s1.subline ++ ids,
      pen := s1.store.length + 1001 })
  | 'M' =>
    let s2 := if s1.subline ≠ [] then
        { s1 with line := s1.line ++ [s1.subline], subline := [] } else s1
    Except.ok (reset { s2 with
      store := s2.store ++ [(args.getD 0 0, args.getD 1 0)], pen := s2.store.length })
  | 'L' =>
    Except.ok (reset { s1 with
      store := s1.store ++ [(args.getD 0 0, args.getD 1 0)],
      pen := s1.store.length, subline := s1.subline ++ [s1.store.length] })
  | 'H' =>
    Except.ok (reset { s1 with
      store := s1.store.set s1.pen (args.getD 0 0, penv.2),
      subline := s1.subline ++ [s1.pen] })
  | 'V' =>
    match args[1]? with
    | none => Except.error PyErr.indexError
    | some a1 =>
      Except.ok (reset { s1 with
        store := s1.store.set s1.pen (penv.1, a1),
        subline := s1.subline ++ [s1.pen] })
  | 'Z' =>
    match s1.subline.head? with
    | none => Except.error PyErr.indexError
    | some h0 => Except.ok (reset { s1 with subline := s1.subline ++ [h0] })
  | _ => Except.ok (reset s1)

/-- First half of the loop body (source lines 159-162): record a command
letter, or collect a float argument.  A letter while a command is active
is `args.append(float(""))`, a ValueError; a number before any letter
assigns the empty command group, leaving the command empty. -/
def collectTok (s : PathState) (t : PTok) : Except PyErr PathState :=
  match s.command, t with
  | none, PTok.cmd c => Except.ok { s with command := some c }
  | none, PTok.num _ => Except.ok s
  | some _, PTok.cmd _ => Except.error PyErr.valueError
  | some _, PTok.num q => Except.ok { s with args := s.args ++ [q] }

/-- Second half of the loop body (source line 164): the arity test
`COMMAND_ARGC[command.upper()] == len(args) and command != ""`.  With the
command still empty the dict lookup on `""` raises KeyError before the
right operand of `and` is reached; otherwise the command is dispatched
exactly when all its arguments have arrived. -/
def dispatchTok (s : PathState) : Except PyErr PathState :=
  match s.command with
  | none => Except.error PyErr.keyError
  | some c =>
    match COMMAND_ARGC c.toUpper with
    | none => Except.error PyErr.keyError
    | some argc =>
      if s.args.length = argc then execCommand s c else Except.ok s

/-- One iteration of the token loop of `compile_path`. -/
def pathStep (s : PathState) (t : PTok) : Except PyErr PathState :=
  match collectTok s t with
  | Except.error err => Except.error err
  | Except.ok s2 => dispatchTok s2

/-- `compile_path`: tokenize `attributes["d"]`, run the state machine over
the tokens, flush a final subline when it has at least 2 points, and
dereference every cell. -/
def compile_path (attrib : List (String × String)) : Except PyErr (List (List (ℚ × ℚ))) :=
  match attrib.lookup "d" with
  | none => Except.error PyErr.keyError
  | some d =>
    match (scanPathToks d.data).foldlM pathStep initPathState with
    | Except.error err => Except.error err
    | Except.ok fin =>
      let line := if fin.subline.length ≥ 2 then fin.line ++ [fin.subline] else fin.line
      Except.ok (line.map (fun sl => sl.map (fun i => fin.store.getD i (0, 0))))

/-! ### Shape expanders -/

/-- Attribute lookup `attributes[k]` (KeyError when the key is absent). -/
def getAttr (attrib : List (String × String)) (k : String) : Except PyErr String :=
  match attrib.lookup k with
  | some v => Except.ok v
  | none => Except.error PyErr.keyError

/-- `compile_rect`: the closed 5-point outline in local coordinates. -/
def compile_rect (attrib : List (String × String)) : Except PyErr (List (List (ℚ × ℚ))) := do
  let ws ← getAttr attrib "width"
  let width ← pyfloat ws
  let hs ← getAttr attrib "height"
  let height ← pyfloat hs
  pure [[(0, 0), (width, 0), (width, height), (0, height), (0, 0)]]

/-- The numeric library operations `compile_ellipse` and the rounding
stage use: math.pi, math.cos, math.sin and the built-in round().  They are
a parameter so that the computable rational pipeline and the real-valued
ellipse development share one text of the function; `realOps` below is the
faithful real instantiation. -/
structure FloatOps (α : Type) where
  pi : α
  cos : α → α
  sin : α → α
  round : α → ℤ

/-- `compile_ellipse` lines 230-239: the polygon approximation computed
once the attributes are parsed.  `new_lines[-1] = new_lines[0]` closes the
loop (the head default is never used: steps >= 6). -/
def compile_ellipse_core {α : Type} [LinearOrderedField α] (F : FloatOps α)
    (center_x center_y radius_x radius_y : α) : List (List (α × α)) :=
  let steps : ℤ := max (F.round (max radius_x radius_y / 6 * F.pi)) 6
  let body := (List.range steps.toNat).map (fun (step : ℕ) =>
    let rad := (step : α) / (steps : α) * 2 * F.pi
    (center_x - radius_x * F.cos rad, center_y + radius_y * F.sin rad))
  [body ++ [body.headD (0, 0)]]

/-- `compile_ellipse`: cx and cy, then r (circle) or rx/ry, then the
polygon expansion. -/
def compile_ellipse {α : Type} [LinearOrderedField α] (F : FloatOps α)
    (attrib : List (String × String)) : Except PyErr (List (List (α × α))) := do
  let cxs ← getAttr attrib "cx"
  let cx ← pyfloat cxs
  let cys ← getAttr attrib "cy"
  let cy ← pyfloat cys
  let r2 ← (match attrib.lookup "r" with
    | some rs => do
        let r ← pyfloat rs
        pure (r, r)
    | none => do
        let rxs ← getAttr attrib "rx"
        let rx ← pyfloat rxs
        let rys ← getAttr attrib "ry"
        let ry ← pyfloat rys
        pure (rx, ry))
  pure (compile_ellipse_core F (cx : α) (cy : α) (r2.1 : α) (r2.2 : α))

/-! ### Transform applier, bounds/merge filter, serializer -/

/-- A point after the transform stage: a pair of Python ints when the
stage rounded, still floats when a transform attribute had an unsupported
numeric count (neither branch fires and nothing is rounded). -/
inductive PyPoint where
  | ipt (x y : ℤ)
  | fpt (x y : ℚ)
  deriving DecidableEq

/-- Transform application and rounding (source lines 267-301): translation
for exactly 2 numeric literals, 2x3 matrix for exactly 6, nothing at all
for any other count, identity-plus-round when the attribute is absent. -/
def apply_transform (tr : Option String) (new_lines : List (List (ℚ × ℚ))) :
    List (List PyPoint) :=
  match tr with
  | some t =>
    let numbers := scanFloats t.data
    if numbers.length = 2 then
      new_lines.map (fun line => line.map (fun point =>
        PyPoint.ipt (pyround (point.1 + numbers.getD 0 0))
          (pyround (point.2 + numbers.getD 1 0))))
    else if numbers.length = 6 then
      new_lines.map (fun line => line.map (fun point =>
        PyPoint.ipt
          (pyround (numbers.getD 0 0 * point.1 + numbers.getD 2 0 * point.2 + numbers.getD 4 0))
          (pyround (numbers.getD 1 0 * point.1 + numbers.getD 3 0 * point.2 + numbers.getD 5 0))))
    else new_lines.map (fun line => line.map (fun point => PyPoint.fpt point.1 point.2))
  | none =>
    new_lines.map (fun line => line.map (fun point =>
      PyPoint.ipt (pyround point.1) (pyround point.2)))

/-- `MERGE_DISTANCE = 1`. -/
def MERGE_DISTANCE : ℤ := 1

/-- `ENCODER[x], ENCODER[y]` for one kept point (the indices are within
the table whenever the point passed the bounds test). -/
def encodePoint (x y : ℤ) : List String :=
  [ENCODER.getD x.toNat "", ENCODER.getD y.toNat ""]

/-- The filter loop body (source lines 305-339): `previous_point` starts
as the empty list (`none` here); a float first coordinate breaks the loop;
an out-of-bounds point is skipped without touching `previous_point`; the
first retained point is always emitted; a later point is emitted iff one
of its coordinates moved at least MERGE_DISTANCE away from
`previous_point`; `previous_point` becomes the current point in every
non-skipped iteration.  (The stale index `i` the source increments on
out-of-bounds points is never read again and has no observable effect.) -/
def flatten_go (previous_point : Option (ℤ × ℤ)) : List PyPoint → List String
  | [] => []
  | PyPoint.fpt _ _ :: _ => []
  | PyPoint.ipt x y :: rest =>
    if x > 800 ∨ x < 0 ∨ y > 600 ∨ y < 0 then flatten_go previous_point rest
    else match previous_point with
      | none => encodePoint x y ++ flatten_go (some (x, y)) rest
      | some pp =>
        if |pp.1 - x| ≥ MERGE_DISTANCE ∨ |pp.2 - y| ≥ MERGE_DISTANCE then
          encodePoint x y ++ flatten_go (some (x, y)) rest
        else flatten_go (some (x, y)) rest

/-- One Stroke string per subline: `"".join(flattened_line)`. -/
def flatten_line (line : List PyPoint) : String :=
  String.join (flatten_go none line)

/-- The `compile_map` dispatch dict of `svg_to_data`. -/
def compile_map (F : FloatOps ℚ) (tag : String) :
    Option (List (String × String) → Except PyErr (List (List (ℚ × ℚ)))) :=
  if tag = "path" then some compile_path
  else if tag = "rect" then some compile_rect
  else if tag = "circle" then some (compile_ellipse F)
  else if tag = "ellipse" then some (compile_ellipse F)
  else none

/-- The per-element loop of `svg_to_data` (source lines 260-340): strip
the namespace from the tag (AttributeError when the regex does not match),
skip unrecognised local names, compile, transform, filter and encode,
collecting one Stroke string per subline in document order. -/
def svg_loop (F : FloatOps ℚ) : List Elem → Except PyErr (List String)
  | [] => Except.ok []
  | e :: rest =>
    match namespace_match e.tag with
    | none => Except.error PyErr.attributeError
    | some tag =>
      match compile_map F tag with
      | none => svg_loop F rest
      | some comp =>
        match comp e.attrib with
        | Except.error err => Except.error err
        | Except.ok new_lines =>
          let transformed := apply_transform (e.attrib.lookup "transform") new_lines
          match svg_loop F rest with
          | Except.error err => Except.error err
          | Except.ok restStrokes => Except.ok (transformed.map flatten_line ++ restStrokes)

/-- `svg_to_data` on the parsed child-element list: the space-joined
strokes of all children.  (The early `len(svg) == 0` return of the source
is the raw-string case with no markup at all; on parsed input it
coincides with the empty child list, which also yields the empty
payload.) -/
def svg_to_data (F : FloatOps ℚ) (children : List Elem) : Except PyErr String :=
  match svg_loop F children with
  | Except.error err => Except.error err
  | Except.ok lines => Except.ok (String.intercalate " " lines)

/-- The faithful numeric operations: math.pi, math.cos, math.sin and the
built-in round(), over the reals. -/
noncomputable def realOps : FloatOps ℝ :=
  { pi := Real.pi, cos := Real.cos, sin := Real.sin, round := pyround }

/-- Rational instantiation of the numeric operations, for theorems whose
executions never reach the trigonometric fields (path, rect and dispatch
facts): round() is the faithful half-even rounding; pi/cos/sin have no
rational counterpart and are placeholders that those executions never
evaluate. -/
def qOps : FloatOps ℚ :=
  { pi := 0, cos := fun _ => 0, sin := fun _ => 0, round := pyround }

/-! ### The simplifier optimize -/

/-- math.atan2 over the reals (floats' signed zero has no counterpart in
ℝ; the y = 0, x < 0 case takes +pi). -/
noncomputable def pyatan2 (y x : ℝ) : ℝ :=
  if 0 < x then Real.arctan (y / x)
  else if x < 0 then
    (if 0 ≤ y then Real.arctan (y / x) + Real.pi else Real.arctan (y / x) - Real.pi)
  else
    (if 0 < y then Real.pi / 2 else if y < 0 then -(Real.pi / 2) else 0)

/-- math.dist on two integer points: Euclidean distance. -/
noncomputable def pydist (p q : ℤ × ℤ) : ℝ :=
  Real.sqrt (((p.1 - q.1 : ℤ) : ℝ) ^ 2 + ((p.2 - q.2 : ℤ) : ℝ) ^ 2)

/-- math.degrees. -/
noncomputable def pydegrees (x : ℝ) : ℝ :=
  x * 180 / Real.pi

/-- Decodes one 4-character point token of a stroke (`DECODER[t[0:2]]`,
`DECODER[t[2:4]]`; both lookups succeed on the splitter's tokens and the
default is never used). -/
def decodeToken (t : String) : ℤ × ℤ :=
  (((DECODER (String.mk (t.data.take 2))).getD 0 : ℤ),
   ((DECODER (String.mk (t.data.drop 2))).getD 0 : ℤ))

/-- The score of a candidate triple (source lines 386-394): the turning
angle difference `|atan2(-p2y+p1y, p2x-p1x) - atan2(-p1y+p0y, p1x-p0x)|`
raised to the power 0.5 (the absolute value is nonnegative, so `** 0.5`
is the square root), converted to degrees, times the sum of the two chord
lengths. -/
noncomputable def optScore (p0 p1 p2 : ℤ × ℤ) : ℝ :=
  let ddeg := pydegrees (Real.sqrt
    |pyatan2 (-(p2.2 : ℝ) + (p1.2 : ℝ)) ((p2.1 : ℝ) - (p1.1 : ℝ)) -
      pyatan2 (-(p1.2 : ℝ) + (p0.2 : ℝ)) ((p1.1 : ℝ) - (p0.1 : ℝ))|)
  let ddist := pydist p0 p1 + pydist p1 p2
  ddeg * ddist

/-- The inner scan of `optimize` (source lines 379-398): starting at
`end = start + 2`, keep advancing `end` while the triple
`(p0, points[end-1], points[end])` scores at most the 230 threshold;
return the value of `end` at the break, or `none` when `end` reached the
stroke length without a break.  The returned position carries its range
facts (it is at least the starting position and within the stroke), which
the source guarantees by construction. -/
noncomputable def opt_inner (points : List String) (p0 : ℤ × ℤ) (e : ℕ) :
    Option {r : ℕ // e ≤ r ∧ r < points.length} :=
  if h : e < points.length then
    if optScore p0 (decodeToken (points.getD (e - 1) ""))
        (decodeToken (points.getD e "")) > 230 then
      some ⟨e, le_refl e, h⟩
    else
      match opt_inner points p0 (e + 1) with
      | some r => some ⟨r.1, by obtain ⟨h1, h2⟩ := r.2; exact ⟨by omega, h2⟩⟩
      | none => none
  else none
termination_by points.length - e
decreasing_by omega

/-- The outer two-pointer loop of `optimize` (source lines 375-400):
from anchor `start`, scan; on a break at `end`, emit `points[end-1]` and
restart from anchor `end - 1`; stop when `start` reaches the last index.
Returns the concatenation of the emitted interior tokens (the source
appends them to `new_line` between the pre-added first token and the
post-added last token). -/
noncomputable def opt_outer (points : List String) (start : ℕ) : String :=
  if h : start + 1 < points.length then
    match opt_inner points (decodeToken (points.getD start "")) (start + 2) with
    | some e => points.getD (e.1 - 1) "" ++ opt_outer points (e.1 - 1)
    | none => ""
  else ""
termination_by points.length - start
decreasing_by obtain ⟨h1, h2⟩ := e.2; omega

/-- One line of `optimize` (source lines 366-402): split into 4-character
point tokens; a line with exactly 2 tokens is appended unchanged;
otherwise the result is the pre-added `points[0]`, the emitted interior
tokens, and the post-added `points[-1]` (`points[0]` on a line with no
token at all is an IndexError). -/
noncomputable def optimize_line (base36_line : List Char) : Except PyErr String :=
  let points := (findall4 base36_line).map String.mk
  if points.length = 2 then Except.ok (String.mk base36_line)
  else match points with
    | [] => Except.error PyErr.indexError
    | p0 :: _ =>
      Except.ok (p0 ++ opt_outer points 0 ++ points.getD (points.length - 1) "")

/-- `optimize`: each whitespace-separated line simplified, single-space
join. -/
noncomputable def optimize (data : String) : Except PyErr String :=
  match (pySplit data).mapM optimize_line with
  | Except.error err => Except.error err
  | Except.ok new_data => Except.ok (String.intercalate " " new_data)

/-! ### Specification-side reference definitions -/

/-- Specification side, bounds test of the filter claim: x in [0, 800] and
y in [0, 600]. -/
def specInBounds (p : ℤ × ℤ) : Prop :=
  0 ≤ p.1 ∧ p.1 ≤ 800 ∧ 0 ≤ p.2 ∧ p.2 ≤ 600

instance (p : ℤ × ℤ) : Decidable (specInBounds p) :=
  inferInstanceAs (Decidable (0 ≤ p.1 ∧ p.1 ≤ 800 ∧ 0 ≤ p.2 ∧ p.2 ≤ 600))

/-- Specification side, the claim's wording of the bounds/merge filter:
drop any out-of-bounds point (with no other effect), always keep the
first retained point, keep a later point iff it differs from the last
kept point by at least 1 in x or in y. -/
def refKeep (lastKept : Option (ℤ × ℤ)) : List (ℤ × ℤ) → List (ℤ × ℤ)
  | [] => []
  | p :: rest =>
    if specInBounds p then
      match lastKept with
      | none => p :: refKeep (some p) rest
      | some q =>
        if 1 ≤ |q.1 - p.1| ∨ 1 ≤ |q.2 - p.2| then p :: refKeep (some p) rest
        else refKeep (some q) rest
    else refKeep lastKept rest

/-- Specification side: the consecutive 4-character chunks of a string
(what `SPLITTER_P.findall` yields when every character is in the
alphabet; a trailing remainder shorter than 4 is dropped). -/
def chunks4 : List Char → List (List Char)
  | c1 :: c2 :: c3 :: c4 :: rest => [c1, c2, c3, c4] :: chunks4 rest
  | _ => []

/-- The coordinates a 4-character point token decodes to. -/
def tokenXY (ch : List Char) : ℕ × ℕ :=
  ((DECODER (String.mk (ch.take 2))).getD 0, (DECODER (String.mk (ch.drop 2))).getD 0)

/-- No two consecutive chunks decode to the same point. -/
def neChainB : List (List Char) → Bool
  | a :: b :: rest => decide (tokenXY a ≠ tokenXY b) && neChainB (b :: rest)
  | _ => true

/-- A well-formed Stroke for the payload roundtrip: only alphabet
characters, whole point tokens, at least 2 of them, every decoded point
within the canvas bounds, and no two consecutive decoded points equal. -/
def goodStroke (t : List Char) : Prop :=
  (∀ c ∈ t, isB36Char c = true) ∧ t.length % 4 = 0 ∧ 8 ≤ t.length ∧
  (∀ ch ∈ chunks4 t, (tokenXY ch).1 ≤ 800 ∧ (tokenXY ch).2 ≤ 600) ∧
  neChainB (chunks4 t) = true

instance (t : List Char) : Decidable (goodStroke t) :=
  inferInstanceAs (Decidable ((∀ c ∈ t, isB36Char c = true) ∧ t.length % 4 = 0 ∧
    8 ≤ t.length ∧ (∀ ch ∈ chunks4 t, (tokenXY ch).1 ≤ 800 ∧ (tokenXY ch).2 ≤ 600) ∧
    neChainB (chunks4 t) = true))

/-- A well-formed payload for the roundtrip: its strokes are well formed
and it is exactly their single-space join (no leading, trailing or
repeated whitespace). -/
def goodPayload (P : String) : Prop :=
  P.data = List.intercalate [' '] (pySplit P) ∧ ∀ t ∈ pySplit P, goodStroke t

instance (P : String) : Decidable (goodPayload P) :=
  inferInstanceAs (Decidable (P.data = List.intercalate [' '] (pySplit P) ∧
    ∀ t ∈ pySplit P, goodStroke t))

/-- The characters `data_to_svg` writes for one decoded point: the decimal
digits of x, a space, the decimal digits of y. -/
def pairChars (p : ℕ × ℕ) : List Char :=
  decDigits p.1 ++ ' ' :: decDigits p.2

/-- The characters of the `L`-joined tail of a stroke's `d` attribute. -/
def lTailChars (ps : List (ℕ × ℕ)) : List Char :=
  (ps.map (fun p => 'L' :: pairChars p)).flatten

/-- The token run the scanner yields for a chain of LineTo pairs. -/
def lToksQ (qs : List (ℚ × ℚ)) : List PTok :=
  qs.flatMap (fun q => [PTok.cmd 'L', PTok.num q.1, PTok.num q.2])

/-! ### Lemmas about the base-36 codec tables -/

theorem b36digit_data : ∀ k < 36, (b36digit k).data = [specB36Char k] := by decide

theorem specB36Char_inj : ∀ i < 36, ∀ j < 36, specB36Char i = specB36Char j → i = j := by
  decide

theorem b36digit_append_data (i j : ℕ) (hi : i < 36) (hj : j < 36) :
    (b36digit i ++ b36digit j).data = [specB36Char i, specB36Char j] := by
  show (b36digit i).data ++ (b36digit j).data = _
  rw [b36digit_data i hi, b36digit_data j hj]; rfl

theorem b36digit_append_inj (i j i2 j2 : ℕ) (hi : i < 36) (hj : j < 36)
    (hi2 : i2 < 36) (hj2 : j2 < 36)
    (h : b36digit i ++ b36digit j = b36digit i2 ++ b36digit j2) : i = i2 ∧ j = j2 := by
  have hd := congrArg String.data h
  rw [b36digit_append_data i j hi hj, b36digit_append_data i2 j2 hi2 hj2] at hd
  have h1 : specB36Char i = specB36Char i2 := by injection hd
  have h2 : specB36Char j = specB36Char j2 := by
    injection hd with _ hd2; injection hd2
  exact ⟨specB36Char_inj i hi i2 hi2 h1, specB36Char_inj j hj j2 hj2 h2⟩

theorem flatten_getElem_uniform {α : Type} (L : List (List α)) (w : ℕ)
    (hw : ∀ l ∈ L, l.length = w) (i j : ℕ) (hj : j < w) :
    L.flatten[w * i + j]? = (L[i]?).bind (fun l => l[j]?) := by
  induction L generalizing i with
  | nil => simp
  | cons l ls ih =>
    have hl : l.length = w := hw l (by simp)
    cases i with
    | zero =>
      rw [Nat.mul_zero, Nat.zero_add, List.flatten_cons,
        List.getElem?_append_left (by omega)]
      simp
    | succ i =>
      rw [List.flatten_cons, List.getElem?_append_right (by rw [hl, Nat.mul_succ]; omega)]
      have harith : w * (i + 1) + j - l.length = w * i + j := by
        rw [hl, Nat.mul_succ]; omega
      rw [harith, ih (fun x hx => hw x (by simp [hx])) i]
      simp

theorem single_digits_length : single_digits.length = 36 := by
  simp [single_digits]

theorem single_digits_getElem? (i : ℕ) (hi : i < 36) :
    single_digits[i]? = some (i, b36digit i) := by
  simp [single_digits, List.getElem?_map, List.getElem?_range hi]

theorem ENCODER_getElem? (i j : ℕ) (hi : i < 36) (hj : j < 36) :
    ENCODER[36 * i + j]? = some (b36digit i ++ b36digit j) := by
  unfold ENCODER
  rw [flatten_getElem_uniform _ 36 ?hw i j hj]
  case hw =>
    intro l hl
    obtain ⟨p, _, rfl⟩ := List.mem_map.1 hl
    exact single_digits_length
  rw [List.getElem?_map, single_digits_getElem? i hi]
  simp only [Option.map_some', Option.some_bind]
  rw [List.getElem?_map, single_digits_getElem? j hj]
  rfl

theorem ENCODER_length : ENCODER.length = 1296 := by
  unfold ENCODER
  rw [List.length_flatten]
  have : (single_digits.map (fun p => single_digits.map (fun q => p.2 ++ q.2))).map
      List.length = List.replicate 36 36 := by
    rw [List.map_map]
    refine List.eq_replicate_iff.2 ⟨by simp [single_digits], ?_⟩
    intro b hb
    obtain ⟨p, _, rfl⟩ := List.mem_map.1 hb
    simp [single_digits]
  rw [this]; rfl

theorem lookup_eq_none_of_ne {β : Type} (k : String) (l : List (String × β))
    (h : ∀ p ∈ l, p.1 ≠ k) : l.lookup k = none := by
  induction l with
  | nil => rfl
  | cons p ps ih =>
    show (match k == p.1 with
      | true => some p.2
      | false => List.lookup k ps) = none
    have : (k == p.1) = false := by
      simp only [beq_eq_false_iff_ne, ne_eq]
      exact fun he => h p (by simp) he.symm
    rw [this]
    exact ih (fun q hq => h q (by simp [hq]))

theorem lookup_mem {β : Type} (k : String) (v : β) (l : List (String × β))
    (h : l.lookup k = some v) : (k, v) ∈ l := by
  induction l with
  | nil => simp [List.lookup] at h
  | cons p ps ih =>
    revert h
    show (match k == p.1 with
      | true => some p.2
      | false => List.lookup k ps) = some v → _
    cases hkp : k == p.1 with
    | true =>
      intro h
      have hk : k = p.1 := by simpa using hkp
      have hv : p.2 = v := by simpa using h
      subst hk
      rw [← hv]
      exact List.mem_cons_self p ps
    | false =>
      intro h
      exact List.mem_cons_of_mem _ (ih h)

theorem string_eq_of_data (s t : String) (h : s.data = t.data) : s = t := by
  exact congrArg String.mk h

theorem mem_single_digits (q : ℕ × String) (hq : q ∈ single_digits) :
    q.2 = b36digit q.1 ∧ q.1 < 36 := by
  obtain ⟨k, hk, rfl⟩ := List.mem_map.1 hq
  simp only [List.mem_range] at hk
  exact ⟨rfl, hk⟩

theorem single_digits_mem (k : ℕ) (hk : k < 36) : (k, b36digit k) ∈ single_digits :=
  List.mem_map.2 ⟨k, List.mem_range.2 hk, rfl⟩

theorem mem_single_digits_fst (k : ℕ) (hk : k < 36) : k ∈ single_digits.map Prod.fst :=
  List.mem_map.2 ⟨(k, b36digit k), single_digits_mem k hk, rfl⟩

theorem row_lookup_aux (i j : ℕ) (hi : i < 36) (hj : j < 36) :
    ∀ (qs : List (ℕ × String)), (∀ q ∈ qs, q.2 = b36digit q.1 ∧ q.1 < 36) →
      j ∈ qs.map Prod.fst →
      (qs.map (fun q => (b36digit i ++ q.2, 36 * i + q.1))).lookup
        (b36digit i ++ b36digit j) = some (36 * i + j) := by
  intro qs
  induction qs with
  | nil => intro _ hj2; simp at hj2
  | cons q qs ih =>
    intro hall hmem
    obtain ⟨hq2, hq1⟩ := hall q (by simp)
    by_cases hqj : q.1 = j
    · show (match (b36digit i ++ b36digit j) == (b36digit i ++ q.2) with
        | true => some (36 * i + q.1)
        | false => _) = _
      rw [hq2, hqj]
      simp
    · show (match (b36digit i ++ b36digit j) == (b36digit i ++ q.2) with
        | true => some (36 * i + q.1)
        | false => _) = _
      have hne : (b36digit i ++ b36digit j) ≠ (b36digit i ++ q.2) := by
        rw [hq2]
        intro he
        exact hqj ((b36digit_append_inj i j i q.1 hi hj hi hq1 he).2).symm
      rw [show ((b36digit i ++ b36digit j) == (b36digit i ++ q.2)) = false from
        beq_eq_false_iff_ne.2 hne]
      refine ih (fun p hp => hall p (by simp [hp])) ?_
      rcases List.mem_map.1 hmem with ⟨p, hp, hpj⟩
      rcases List.mem_cons.1 hp with rfl | hp2
      · exact absurd hpj hqj
      · exact List.mem_map.2 ⟨p, hp2, hpj⟩

theorem row_lookup_none (i2 i j : ℕ) (hne : i2 ≠ i) (hi2 : i2 < 36) (hi : i < 36)
    (hj : j < 36) (qs : List (ℕ × String))
    (hall : ∀ q ∈ qs, q.2 = b36digit q.1 ∧ q.1 < 36) :
    (qs.map (fun q => (b36digit i2 ++ q.2, 36 * i2 + q.1))).lookup
      (b36digit i ++ b36digit j) = none := by
  refine lookup_eq_none_of_ne _ _ ?_
  intro p hp
  obtain ⟨q, hq, rfl⟩ := List.mem_map.1 hp
  obtain ⟨hq2, hq1⟩ := hall q hq
  rw [hq2]
  intro he
  exact hne (b36digit_append_inj i2 q.1 i j hi2 hq1 hi hj he).1

theorem DECODER_lookup (i j : ℕ) (hi : i < 36) (hj : j < 36) :
    DECODER (b36digit i ++ b36digit j) = some (36 * i + j) := by
  unfold DECODER DECODER_LIST
  have main : ∀ (ps : List (ℕ × String)), (∀ p ∈ ps, p.2 = b36digit p.1 ∧ p.1 < 36) →
      i ∈ ps.map Prod.fst →
      ((ps.map (fun p => single_digits.map
          (fun q => (p.2 ++ q.2, 36 * p.1 + q.1)))).flatten).lookup
        (b36digit i ++ b36digit j) = some (36 * i + j) := by
    intro ps
    induction ps with
    | nil => intro _ hmem; simp at hmem
    | cons p ps ih =>
      intro hall hmem
      obtain ⟨hp2, hp1⟩ := hall p (by simp)
      rw [List.map_cons, List.flatten_cons, List.lookup_append]
      by_cases hpi : p.1 = i
      · rw [hp2, hpi, row_lookup_aux i j hi hj single_digits mem_single_digits
          (mem_single_digits_fst j hj)]
        rfl
      · rw [hp2, row_lookup_none p.1 i j hpi hp1 hi hj single_digits mem_single_digits]
        show List.lookup _ _ = _
        refine ih (fun q hq => hall q (by simp [hq])) ?_
        rcases List.mem_map.1 hmem with ⟨q, hq, hqi⟩
        rcases List.mem_cons.1 hq with rfl | hq2
        · exact absurd hqi hpi
        · exact List.mem_map.2 ⟨q, hq2, hqi⟩
  exact main single_digits mem_single_digits (mem_single_digits_fst i hi)

theorem DECODER_some (s : String) (n : ℕ) (h : DECODER s = some n) :
    ∃ i j, i < 36 ∧ j < 36 ∧ n = 36 * i + j ∧ s = b36digit i ++ b36digit j := by
  have hm := lookup_mem s n DECODER_LIST h
  unfold DECODER_LIST at hm
  rw [List.mem_flatten] at hm
  obtain ⟨row, hrow, hsr⟩ := hm
  obtain ⟨p, hp, rfl⟩ := List.mem_map.1 hrow
  obtain ⟨q, hq, hpq⟩ := List.mem_map.1 hsr
  obtain ⟨hp2, hp1⟩ := mem_single_digits p hp
  obtain ⟨hq2, hq1⟩ := mem_single_digits q hq
  refine ⟨p.1, q.1, hp1, hq1, ?_, ?_⟩
  · have := congrArg Prod.snd hpq; simpa using this.symm
  · have := congrArg Prod.fst hpq
    simp only at this
    rw [← this, hp2, hq2]

theorem isB36Char_val (c : Char) (h : isB36Char c = true) :
    b36val c < 36 ∧ specB36Char (b36val c) = c := by
  unfold isB36Char at h
  unfold b36val specB36Char
  rcases Bool.or_eq_true_iff.1 h with hd | hl
  · obtain ⟨h1, h2⟩ := Bool.and_eq_true_iff.1 hd
    have h1n : 48 ≤ c.toNat := by exact_mod_cast of_decide_eq_true h1
    have h2n : c.toNat ≤ 57 := by exact_mod_cast of_decide_eq_true h2
    rw [if_pos h2n, if_pos (by omega)]
    constructor
    · omega
    · have : 48 + (c.toNat - 48) = c.toNat := by omega
      rw [this, Char.ofNat_toNat]
  · obtain ⟨h1, h2⟩ := Bool.and_eq_true_iff.1 hl
    have h1n : 97 ≤ c.toNat := by exact_mod_cast of_decide_eq_true h1
    have h2n : c.toNat ≤ 122 := by exact_mod_cast of_decide_eq_true h2
    rw [if_neg (by omega), if_neg (by omega)]
    constructor
    · omega
    · have : 87 + (c.toNat - 87) = c.toNat := by omega
      rw [this, Char.ofNat_toNat]

theorem specB36Char_val : ∀ k < 36, isB36Char (specB36Char k) = true ∧
    b36val (specB36Char k) = k := by decide

theorem b36digit_of_char (c : Char) (h : isB36Char c = true) :
    (b36digit (b36val c)).data = [c] := by
  obtain ⟨hlt, hc⟩ := isB36Char_val c h
  rw [b36digit_data _ hlt, hc]

/-- The key decode fact for 2-character codes made of alphabet characters:
the dict lookup succeeds and returns `36 * v(c1) + v(c2)`. -/
theorem DECODER_pair (c1 c2 : Char) (h1 : isB36Char c1 = true) (h2 : isB36Char c2 = true) :
    DECODER (String.mk [c1, c2]) = some (36 * b36val c1 + b36val c2) := by
  obtain ⟨hl1, _⟩ := isB36Char_val c1 h1
  obtain ⟨hl2, _⟩ := isB36Char_val c2 h2
  have hs : String.mk [c1, c2] = b36digit (b36val c1) ++ b36digit (b36val c2) := by
    refine string_eq_of_data _ _ ?_
    show [c1, c2] = (b36digit (b36val c1)).data ++ (b36digit (b36val c2)).data
    rw [b36digit_of_char c1 h1, b36digit_of_char c2 h2]
    rfl
  rw [hs, DECODER_lookup _ _ hl1 hl2]

/-- The key encode fact: the table entry for `36 * v(c1) + v(c2)` is the
2-character string `c1 c2`. -/
theorem ENCODER_pair (c1 c2 : Char) (h1 : isB36Char c1 = true) (h2 : isB36Char c2 = true) :
    ENCODER[36 * b36val c1 + b36val c2]? = some (String.mk [c1, c2]) := by
  obtain ⟨hl1, _⟩ := isB36Char_val c1 h1
  obtain ⟨hl2, _⟩ := isB36Char_val c2 h2
  rw [ENCODER_getElem? _ _ hl1 hl2]
  congr 1
  refine string_eq_of_data _ _ ?_
  show (b36digit (b36val c1)).data ++ (b36digit (b36val c2)).data = [c1, c2]
  rw [b36digit_of_char c1 h1, b36digit_of_char c2 h2]
  rfl

/-! ### Invariants of the path interpreter -/

theorem execCommand_ok_line (s : PathState) (c0 : Char) (s2 : PathState)
    (h : execCommand s c0 = Except.ok s2) :
    s2.line = s.line ∨ ∃ sub, sub ≠ [] ∧ s2.line = s.line ++ [sub] := by
  simp only [execCommand] at h
  split at h
  · -- C
    injection h with h
    subst h
    left
    dsimp only
    split <;> rfl
  · -- M
    injection h with h
    subst h
    dsimp only
    split <;> split
    · rename_i hne
      right
      exact ⟨_, hne, rfl⟩
    · left
      rfl
    · rename_i hne
      right
      exact ⟨_, hne, rfl⟩
    · left
      rfl
  · -- L
    injection h with h
    subst h
    left
    dsimp only
    split <;> rfl
  · -- H
    injection h with h
    subst h
    left
    dsimp only
    split <;> rfl
  · -- V
    split at h
    · cases h
    · injection h with h
      subst h
      left
      dsimp only
      split <;> rfl
  · -- Z
    split at h
    · cases h
    · injection h with h
      subst h
      left
      dsimp only
      split <;> rfl
  · -- fallthrough
    injection h with h
    subst h
    left
    dsimp only
    split <;> rfl

theorem collectTok_ok_line (s : PathState) (t : PTok) (s2 : PathState)
    (h : collectTok s t = Except.ok s2) : s2.line = s.line := by
  unfold collectTok at h
  split at h <;> first
    | (injection h with h; subst h; rfl)
    | cases h

theorem dispatchTok_ok_line (s : PathState) (s2 : PathState)
    (h : dispatchTok s = Except.ok s2) :
    s2.line = s.line ∨ ∃ sub, sub ≠ [] ∧ s2.line = s.line ++ [sub] := by
  unfold dispatchTok at h
  split at h
  · cases h
  · split at h
    · cases h
    · split at h
      · exact execCommand_ok_line _ _ _ h
      · injection h with h
        subst h
        left
        rfl

theorem pathStep_ok_line (s : PathState) (t : PTok) (s2 : PathState)
    (h : pathStep s t = Except.ok s2) :
    s2.line = s.line ∨ ∃ sub, sub ≠ [] ∧ s2.line = s.line ++ [sub] := by
  unfold pathStep at h
  split at h
  · cases h
  · rename_i sMid hsMid
    rcases dispatchTok_ok_line _ _ h with h1 | ⟨sub, hsub, h2⟩
    · left; rw [h1, collectTok_ok_line _ _ _ hsMid]
    · right; exact ⟨sub, hsub, by rw [h2, collectTok_ok_line _ _ _ hsMid]⟩

theorem foldlM_pathStep_line (toks : List PTok) :
    ∀ (s s2 : PathState), toks.foldlM pathStep s = Except.ok s2 →
      (∀ l ∈ s.line, l ≠ []) → ∀ l ∈ s2.line, l ≠ [] := by
  induction toks with
  | nil =>
    intro s s2 h hs
    simp only [List.foldlM] at h
    have h2 : s = s2 := Except.ok.inj h
    rw [← h2]
    exact hs
  | cons t ts ih =>
    intro s s2 h hs
    rw [List.foldlM_cons] at h
    cases hstep : pathStep s t with
    | error err => rw [hstep] at h; cases h
    | ok sMid =>
      rw [hstep] at h
      have hMid : ∀ l ∈ sMid.line, l ≠ [] := by
        rcases pathStep_ok_line s t sMid hstep with h1 | ⟨sub, hsub, h2⟩
        · rw [h1]; exact hs
        · rw [h2]
          intro l hl
          rcases List.mem_append.1 hl with hl2 | hl2
          · exact hs l hl2
          · have : l = sub := by simpa using hl2
            rw [this]
            exact hsub
      exact ih sMid s2 h hMid

/-! ### Claim theorems and witnesses -/

theorem svg_loop_skip (F : FloatOps ℚ) (e : Elem) (t : String)
    (hns : namespace_match e.tag = some t)
    (h1 : t ≠ "path") (h2 : t ≠ "rect") (h3 : t ≠ "circle") (h4 : t ≠ "ellipse") :
    ∀ (pre post : List Elem),
      svg_loop F (pre ++ e :: post) = svg_loop F (pre ++ post) := by
  have hcm : compile_map F t = none := by
    unfold compile_map
    rw [if_neg h1, if_neg h2, if_neg h3, if_neg h4]
  intro pre
  induction pre with
  | nil =>
    intro post
    show svg_loop F (e :: post) = svg_loop F post
    conv_lhs => unfold svg_loop
    rw [hns]
    dsimp only
    rw [hcm]
  | cons e0 pre ih =>
    intro post
    show svg_loop F (e0 :: (pre ++ e :: post)) = svg_loop F (e0 :: (pre ++ post))
    unfold svg_loop
    rw [ih post]

/-- C2, counterexample: the tag matcher `NAMESPACE_P` requires a brace
namespace prefix; on an unprefixed tag `match` returns None and the
`.group` access raises AttributeError, for recognised and unrecognised
local names alike - neither is matched nor silently skipped. -/
theorem C2_counterexample :
    svg_to_data qOps [{ tag := "rect", attrib := [("width", "3"), ("height", "4")] }]
      = Except.error PyErr.attributeError ∧
    svg_to_data qOps [{ tag := "foo", attrib := [] }]
      = Except.error PyErr.attributeError := by
  constructor <;> rfl

/-- C2, amended: the element loop strips the namespace prefix and matches
the local name only for tags that carry such a prefix, and then any
unrecognised local name is silently skipped (the element contributes
nothing and no error is raised); an element whose tag has no namespace
prefix instead raises AttributeError. -/
theorem C2_amended_namespace_dispatch :
    (∀ (F : FloatOps ℚ) (tag : String) (attrs : List (String × String)) (rest : List Elem),
      namespace_match tag = none →
      svg_to_data F ({ tag := tag, attrib := attrs } :: rest)
        = Except.error PyErr.attributeError) ∧
    (∀ (F : FloatOps ℚ) (t tag : String) (attrs : List (String × String))
      (pre post : List Elem),
      namespace_match tag = some t →
      t ≠ "path" → t ≠ "rect" → t ≠ "circle" → t ≠ "ellipse" →
      svg_to_data F (pre ++ { tag := tag, attrib := attrs } :: post)
        = svg_to_data F (pre ++ post)) := by
  constructor
  · intro F tag attrs rest h
    unfold svg_to_data svg_loop
    dsimp only
    rw [h]
  · intro F t tag attrs pre post hns h1 h2 h3 h4
    unfold svg_to_data
    rw [svg_loop_skip F { tag := tag, attrib := attrs } t hns h1 h2 h3 h4 pre post]

/-- Witness for the amended C2: an unprefixed path tag raises, a prefixed
unknown tag is skipped. -/
theorem C2_amended_witness :
    svg_to_data qOps [{ tag := "path", attrib := [("d", "M0 0L1 1")] }]
      = Except.error PyErr.attributeError ∧
    svg_to_data qOps [{ tag := "\x7burn:x\x7dtext", attrib := [] }]
      = svg_to_data qOps [] := by
  constructor
  · exact C2_amended_namespace_dispatch.1 qOps "path" [("d", "M0 0L1 1")] [] rfl
  · exact C2_amended_namespace_dispatch.2 qOps "text" "\x7burn:x\x7dtext" [] [] []
      (by rfl) (by decide) (by decide) (by decide) (by decide)

theorem except_ok_bind {ε α β : Type} (a : α) (f : α → Except ε β) :
    (Except.ok a >>= f) = f a := rfl

theorem except_error_bind {ε α β : Type} (e : ε) (f : α → Except ε β) :
    ((Except.error e : Except ε α) >>= f) = Except.error e := rfl

theorem string_mk_data (s : String) : String.mk s.data = s := rfl

theorem isB36Char_not_ws (c : Char) (h : isB36Char c = true) : pyWs c = false := by
  have h48 : 48 ≤ c.toNat := by
    rcases Bool.or_eq_true_iff.1 h with h1 | h1 <;>
      obtain ⟨ha, _⟩ := Bool.and_eq_true_iff.1 h1
    · exact of_decide_eq_true ha
    · have := of_decide_eq_true ha
      omega
  have hne : ∀ w : Char, w.toNat < 48 → c ≠ w := by
    intro w hw he
    rw [he] at h48
    omega
  simp only [pyWs, Bool.or_eq_false_iff, decide_eq_false_iff_not]
  exact ⟨⟨⟨⟨⟨hne ' ' (by decide), hne '\t' (by decide)⟩, hne '\n' (by decide)⟩,
    hne '\r' (by decide)⟩, hne '\x0b' (by decide)⟩, hne '\x0c' (by decide)⟩

theorem pySplit_single (s : String) (hne : s.data ≠ [])
    (hws : ∀ c ∈ s.data, pyWs c = false) : pySplit s = [s.data] := by
  unfold pySplit
  rw [List.splitOnP_eq_single pyWs s.data (fun c hc => by rw [hws c hc]; exact Bool.false_ne_true)]
  simp [hne]

theorem findall4F_irrel : ∀ (f1 f2 : ℕ) (l : List Char), l.length ≤ f1 → l.length ≤ f2 →
    findall4F f1 l = findall4F f2 l := by
  intro f1
  induction f1 with
  | zero =>
    intro f2 l h1 _
    have : l = [] := List.length_eq_zero.1 (by omega)
    subst this
    cases f2 <;> rfl
  | succ f1 ih =>
    intro f2 l h1 h2
    cases f2 with
    | zero =>
      have : l = [] := List.length_eq_zero.1 (by omega)
      subst this
      rfl
    | succ f2 =>
      rcases l with _ | ⟨c1, _ | ⟨c2, _ | ⟨c3, _ | ⟨c4, rest⟩⟩⟩⟩
      · rfl
      · rfl
      · rfl
      · rfl
      · simp only [List.length_cons] at h1 h2
        show (if isB36Char c1 && isB36Char c2 && isB36Char c3 && isB36Char c4 then
            [c1, c2, c3, c4] :: findall4F f1 rest
          else findall4F f1 (c2 :: c3 :: c4 :: rest)) =
          (if isB36Char c1 && isB36Char c2 && isB36Char c3 && isB36Char c4 then
            [c1, c2, c3, c4] :: findall4F f2 rest
          else findall4F f2 (c2 :: c3 :: c4 :: rest))
        split
        · rw [ih f2 rest (by omega) (by omega)]
        · rw [ih f2 (c2 :: c3 :: c4 :: rest) (by simp; omega) (by simp; omega)]

theorem findall4_eq_chunks4 (l : List Char) (h : ∀ c ∈ l, isB36Char c = true) :
    findall4 l = chunks4 l := by
  suffices H : ∀ (n : ℕ) (l : List Char), l.length ≤ n →
      (∀ c ∈ l, isB36Char c = true) → findall4 l = chunks4 l from
    H l.length l (le_refl _) h
  intro n
  induction n with
  | zero =>
    intro l hl _
    have : l = [] := List.length_eq_zero.1 (by omega)
    subst this
    rfl
  | succ n ih =>
    intro l hl hv
    rcases l with _ | ⟨c1, _ | ⟨c2, _ | ⟨c3, _ | ⟨c4, rest⟩⟩⟩⟩
    · rfl
    · rfl
    · rfl
    · rfl
    · have v1 : isB36Char c1 = true := hv c1 (by simp)
      have v2 : isB36Char c2 = true := hv c2 (by simp)
      have v3 : isB36Char c3 = true := hv c3 (by simp)
      have v4 : isB36Char c4 = true := hv c4 (by simp)
      have hstep : findall4 (c1 :: c2 :: c3 :: c4 :: rest)
          = [c1, c2, c3, c4] :: findall4F (rest.length + 3) rest := by
        show findall4F (rest.length + 4) (c1 :: c2 :: c3 :: c4 :: rest) = _
        show (if isB36Char c1 && isB36Char c2 && isB36Char c3 && isB36Char c4 then
            [c1, c2, c3, c4] :: findall4F (rest.length + 3) rest
          else findall4F (rest.length + 3) (c2 :: c3 :: c4 :: rest)) = _
        rw [if_pos (by rw [v1, v2, v3, v4]; rfl)]
      rw [hstep, findall4F_irrel (rest.length + 3) rest.length rest (by omega) (le_refl _)]
      show [c1, c2, c3, c4] :: findall4 rest = [c1, c2, c3, c4] :: chunks4 rest
      rw [ih rest (by simp at hl; omega) (fun c hc => hv c (by simp [hc]))]

theorem opt_outer_stop (points : List String) (start : ℕ)
    (h : ¬(start + 1 < points.length)) : opt_outer points start = "" := by
  unfold opt_outer
  rw [dif_neg h]

theorem chunks4_length_div : ∀ l : List Char, (chunks4 l).length = l.length / 4 := by
  suffices H : ∀ (n : ℕ) (l : List Char), l.length ≤ n →
      (chunks4 l).length = l.length / 4 from fun l => H l.length l (le_refl _)
  intro n
  induction n with
  | zero =>
    intro l hl
    have : l = [] := List.length_eq_zero.1 (by omega)
    subst this
    rfl
  | succ n ih =>
    intro l hl
    rcases l with _ | ⟨c1, _ | ⟨c2, _ | ⟨c3, _ | ⟨c4, rest⟩⟩⟩⟩
    · rfl
    · simp [chunks4]
    · simp [chunks4]
    · simp [chunks4]
    · show (chunks4 rest).length + 1 = (rest.length + 4) / 4
      rw [ih rest (by simp at hl; omega), Nat.add_div_right rest.length (by norm_num)]

theorem chunks4_ne_nil (l : List Char) (h : 4 ≤ l.length) : chunks4 l ≠ [] := by
  rcases l with _ | ⟨c1, _ | ⟨c2, _ | ⟨c3, _ | ⟨c4, rest⟩⟩⟩⟩
  · exfalso; simp at h
  · exfalso; simp at h
  · exfalso; simp at h
  · exfalso; simp at h
  · show [c1, c2, c3, c4] :: chunks4 rest ≠ []
    simp

theorem chunks4_last_drop : ∀ l : List Char, l.length % 4 = 0 → 4 ≤ l.length →
    (chunks4 l).getLast? = some (l.drop (l.length - 4)) := by
  suffices H : ∀ (n : ℕ) (l : List Char), l.length ≤ n → l.length % 4 = 0 →
      4 ≤ l.length → (chunks4 l).getLast? = some (l.drop (l.length - 4)) from
    fun l => H l.length l (le_refl _)
  intro n
  induction n with
  | zero =>
    intro l hl _ h4
    omega
  | succ n ih =>
    intro l hl hmod h4
    rcases l with _ | ⟨c1, _ | ⟨c2, _ | ⟨c3, _ | ⟨c4, rest⟩⟩⟩⟩
    · exfalso; simp at h4
    · exfalso; simp at h4
    · exfalso; simp at h4
    · exfalso; simp at h4
    · have hlrest : (c1 :: c2 :: c3 :: c4 :: rest).length = rest.length + 4 := by simp
      show ([c1, c2, c3, c4] :: chunks4 rest).getLast?
        = some ((c1 :: c2 :: c3 :: c4 :: rest).drop ((c1 :: c2 :: c3 :: c4 :: rest).length - 4))
      by_cases hr : rest = []
      · subst hr
        rfl
      · have hr4 : 4 ≤ rest.length := by
          have h0 : rest.length ≠ 0 := fun he => hr (List.length_eq_zero.1 he)
          rw [hlrest] at hmod
          omega
      -- rest length is a positive multiple of 4
        obtain ⟨x, xs, hxx⟩ : ∃ x xs, chunks4 rest = x :: xs := by
          rcases hc : chunks4 rest with _ | ⟨x, xs⟩
          · exact absurd hc (chunks4_ne_nil rest hr4)
          · exact ⟨x, xs, rfl⟩
        rw [hxx, List.getLast?_cons_cons, ← hxx,
          ih rest (by rw [hlrest] at hl; omega) (by rw [hlrest] at hmod; omega) hr4]
        congr 1
        have harith : (c1 :: c2 :: c3 :: c4 :: rest).length - 4 = (rest.length - 4) + 4 := by
          rw [hlrest]
          omega
        rw [harith]
        simp only [List.drop_succ_cons]

theorem pyround_pi : pyround Real.pi = 3 := by
  have h3 : (3 : ℝ) < Real.pi := Real.pi_gt_three
  have h4 : Real.pi < 3.15 := Real.pi_lt_315
  have hfloor : ⌊Real.pi⌋ = 3 := by
    rw [Int.floor_eq_iff]
    constructor
    · norm_num
      linarith
    · push_cast
      linarith
  simp only [pyround, hfloor]
  rw [if_pos]
  push_cast
  norm_num at h4
  linarith

/-- The general shape of `compile_ellipse_core` over the reals. -/
theorem compile_ellipse_core_real (cx cy rx ry : ℝ) :
    compile_ellipse_core realOps cx cy rx ry =
      [((List.range (max (pyround (max rx ry / 6 * Real.pi)) 6).toNat).map
          (fun (step : ℕ) =>
            (cx - rx * Real.cos ((step : ℝ) /
                ((max (pyround (max rx ry / 6 * Real.pi)) 6 : ℤ) : ℝ) * 2 * Real.pi),
             cy + ry * Real.sin ((step : ℝ) /
                ((max (pyround (max rx ry / 6 * Real.pi)) 6 : ℤ) : ℝ) * 2 * Real.pi)))) ++
        [((List.range (max (pyround (max rx ry / 6 * Real.pi)) 6).toNat).map
          (fun (step : ℕ) =>
            (cx - rx * Real.cos ((step : ℝ) /
                ((max (pyround (max rx ry / 6 * Real.pi)) 6 : ℤ) : ℝ) * 2 * Real.pi),
             cy + ry * Real.sin ((step : ℝ) /
                ((max (pyround (max rx ry / 6 * Real.pi)) 6 : ℤ) : ℝ) * 2 * Real.pi)))).headD
          (0, 0)]] := rfl

theorem steps_toNat_pos (x : ℤ) : 0 < (max x 6).toNat := by
  have : (6 : ℤ) ≤ max x 6 := le_max_right x 6
  omega

/-- C9: the ellipse expander returns exactly one closed polyline with
segment count max(round(max(rx,ry)/6*pi), 6); the point at index `step`
(step < segments) is (cx - rx*cos(step/segments*2*pi),
cy + ry*sin(step/segments*2*pi)); the last point equals the first; and in
particular cx=0, cy=0, r=6 yields 6 segments, i.e. 7 points with
point[0] = point[6]. -/
theorem C9_ellipse_expander :
    (∀ cx cy rx ry : ℝ,
      ∃ pts : List (ℝ × ℝ),
        compile_ellipse_core realOps cx cy rx ry = [pts] ∧
        pts.length = (max (pyround (max rx ry / 6 * Real.pi)) 6).toNat + 1 ∧
        (∀ k : ℕ, k < (max (pyround (max rx ry / 6 * Real.pi)) 6).toNat →
          pts[k]? = some
            (cx - rx * Real.cos ((k : ℝ) /
                ((max (pyround (max rx ry / 6 * Real.pi)) 6 : ℤ) : ℝ) * 2 * Real.pi),
             cy + ry * Real.sin ((k : ℝ) /
                ((max (pyround (max rx ry / 6 * Real.pi)) 6 : ℤ) : ℝ) * 2 * Real.pi))) ∧
        pts[(max (pyround (max rx ry / 6 * Real.pi)) 6).toNat]? = pts[0]?) ∧
    (∃ pts : List (ℝ × ℝ),
      compile_ellipse realOps [("cx", "0"), ("cy", "0"), ("r", "6")] = Except.ok [pts] ∧
      pts.length = 7 ∧ pts[6]? = pts[0]?) := by
  have main : ∀ cx cy rx ry : ℝ,
      ∃ pts : List (ℝ × ℝ),
        compile_ellipse_core realOps cx cy rx ry = [pts] ∧
        pts.length = (max (pyround (max rx ry / 6 * Real.pi)) 6).toNat + 1 ∧
        (∀ k : ℕ, k < (max (pyround (max rx ry / 6 * Real.pi)) 6).toNat →
          pts[k]? = some
            (cx - rx * Real.cos ((k : ℝ) /
                ((max (pyround (max rx ry / 6 * Real.pi)) 6 : ℤ) : ℝ) * 2 * Real.pi),
             cy + ry * Real.sin ((k : ℝ) /
                ((max (pyround (max rx ry / 6 * Real.pi)) 6 : ℤ) : ℝ) * 2 * Real.pi))) ∧
        pts[(max (pyround (max rx ry / 6 * Real.pi)) 6).toNat]? = pts[0]? := by
    intro cx cy rx ry
    set S : ℤ := max (pyround (max rx ry / 6 * Real.pi)) 6 with hS
    set f : ℕ → ℝ × ℝ := fun step =>
      (cx - rx * Real.cos ((step : ℝ) / (S : ℝ) * 2 * Real.pi),
       cy + ry * Real.sin ((step : ℝ) / (S : ℝ) * 2 * Real.pi)) with hf
    set body : List (ℝ × ℝ) := (List.range S.toNat).map f with hbody
    have hpos : 0 < S.toNat := steps_toNat_pos _
    have hblen : body.length = S.toNat := by
      rw [hbody, List.length_map, List.length_range]
    have hhead : body.headD (0, 0) = f 0 := by
      obtain ⟨m, hm⟩ : ∃ m, S.toNat = m + 1 := ⟨S.toNat - 1, by omega⟩
      rw [hbody, hm, List.range_succ_eq_map]
      rfl
    refine ⟨body ++ [body.headD (0, 0)], compile_ellipse_core_real cx cy rx ry, ?_, ?_, ?_⟩
    · rw [List.length_append, hblen]
      rfl
    · intro k hk
      rw [List.getElem?_append_left (by rw [hblen]; exact hk), hbody,
        List.getElem?_map, List.getElem?_range hk]
      rfl
    · rw [List.getElem?_append_right (by rw [hblen]), List.getElem?_append_left (by omega),
        hblen]
      simp only [Nat.sub_self]
      rw [hbody, List.getElem?_map, List.getElem?_range hpos]
      simp only [List.getElem?_cons_zero, Option.map_some']
      rw [hhead]
  refine ⟨main, ?_⟩
  have hp0 : pyfloat "0" = Except.ok 0 := by
    simp [pyfloat, pyWs, natOfDigits]
  have hp6 : pyfloat "6" = Except.ok 6 := by
    simp [pyfloat, pyWs, natOfDigits]
  have hpe : compile_ellipse realOps [("cx", "0"), ("cy", "0"), ("r", "6")]
      = Except.ok (compile_ellipse_core realOps 0 0 6 6) := by
    simp [compile_ellipse, getAttr, List.lookup, hp0, hp6, except_ok_bind]
  have hsix : max (pyround (max (6 : ℝ) 6 / 6 * Real.pi)) 6 = 6 := by
    have h1 : max (6 : ℝ) 6 / 6 * Real.pi = Real.pi := by norm_num
    rw [h1, pyround_pi]
    rfl
  obtain ⟨pts, h1, h2, _, h4⟩ := main 0 0 6 6
  refine ⟨pts, by rw [hpe, h1], ?_, ?_⟩
  · rw [h2, hsix]
    rfl
  · have h6 : (max (pyround (max (6 : ℝ) 6 / 6 * Real.pi)) 6).toNat = 6 := by
      rw [hsix]
      rfl
    rw [← h6]
    exact h4

/-- Witness for C9's general part at cx = 0, cy = 0, rx = ry = 1, k = 0
(0 < segments since segments is at least 6). -/
theorem C9_ellipse_expander_witness :
    ∃ pts : List (ℝ × ℝ),
      compile_ellipse_core realOps 0 0 1 1 = [pts] ∧
      pts[(0 : ℕ)]? = some
        ((0 : ℝ) - 1 * Real.cos (((0 : ℕ) : ℝ) /
            ((max (pyround (max (1 : ℝ) 1 / 6 * Real.pi)) 6 : ℤ) : ℝ) * 2 * Real.pi),
         (0 : ℝ) + 1 * Real.sin (((0 : ℕ) : ℝ) /
            ((max (pyround (max (1 : ℝ) 1 / 6 * Real.pi)) 6 : ℤ) : ℝ) * 2 * Real.pi)) := by
  obtain ⟨pts, h1, _, h3, _⟩ := C9_ellipse_expander.1 0 0 1 1
  exact ⟨pts, h1, h3 0 (steps_toNat_pos _)⟩

/-- C7: for every n in [0,1295], the encoder table maps n to the unique
2-character base-36 string over the alphabet 0-9 then a-z with the most
significant symbol first, the decoder maps that string back to n, and the
two tables are mutually inverse total bijections between [0,1295] and the
1296 valid 2-character combinations. -/
theorem C7_codec_bijection :
    (∀ n : ℕ, n < 1296 → ENCODER[n]? = some (specB36 n)) ∧
    (∀ n : ℕ, n < 1296 → DECODER (specB36 n) = some n) ∧
    (∀ s : String, validB36Pair s →
      ∃ n : ℕ, n < 1296 ∧ DECODER s = some n ∧ ENCODER[n]? = some s) ∧
    (∀ (s : String) (n : ℕ), DECODER s = some n →
      n < 1296 ∧ ENCODER[n]? = some s ∧ validB36Pair s) := by
  have hsplit : ∀ n : ℕ, n < 1296 → n / 36 < 36 ∧ n % 36 < 36 ∧ 36 * (n / 36) + n % 36 = n :=
    fun n hn => ⟨Nat.div_lt_of_lt_mul (by omega), Nat.mod_lt _ (by omega),
      Nat.div_add_mod n 36⟩
  have hspec : ∀ n : ℕ, n < 1296 → specB36 n = b36digit (n / 36) ++ b36digit (n % 36) := by
    intro n hn
    obtain ⟨h1, h2, _⟩ := hsplit n hn
    refine (string_eq_of_data _ _ ?_).symm
    rw [b36digit_append_data _ _ h1 h2]
    rfl
  refine ⟨?_, ?_, ?_, ?_⟩
  · intro n hn
    obtain ⟨h1, h2, h3⟩ := hsplit n hn
    calc ENCODER[n]? = ENCODER[36 * (n / 36) + n % 36]? := by rw [h3]
      _ = some (b36digit (n / 36) ++ b36digit (n % 36)) := ENCODER_getElem? _ _ h1 h2
      _ = some (specB36 n) := by rw [hspec n hn]
  · intro n hn
    obtain ⟨h1, h2, h3⟩ := hsplit n hn
    rw [hspec n hn, DECODER_lookup _ _ h1 h2, h3]
  · intro s hs
    obtain ⟨hlen, hall⟩ := hs
    obtain ⟨c1, c2, hdata⟩ := List.length_eq_two.1 hlen
    have h1 : isB36Char c1 = true := hall c1 (by rw [hdata]; simp)
    have h2 : isB36Char c2 = true := hall c2 (by rw [hdata]; simp)
    obtain ⟨hv1, _⟩ := isB36Char_val c1 h1
    obtain ⟨hv2, _⟩ := isB36Char_val c2 h2
    have hsmk : s = String.mk [c1, c2] := string_eq_of_data _ _ hdata
    refine ⟨36 * b36val c1 + b36val c2, by omega, ?_, ?_⟩
    · rw [hsmk]; exact DECODER_pair c1 c2 h1 h2
    · rw [hsmk]; exact ENCODER_pair c1 c2 h1 h2
  · intro s n h
    obtain ⟨i, j, hi, hj, hn, hsd⟩ := DECODER_some s n h
    obtain ⟨hc1, hb1⟩ := specB36Char_val i hi
    obtain ⟨hc2, hb2⟩ := specB36Char_val j hj
    refine ⟨by omega, ?_, ?_⟩
    · rw [hn, hsd]; exact ENCODER_getElem? i j hi hj
    · constructor
      · rw [hsd]
        show (b36digit i ++ b36digit j).data.length = 2
        rw [b36digit_append_data i j hi hj]
        rfl
      · intro c hc
        rw [hsd] at hc
        have hc2d : c ∈ [specB36Char i, specB36Char j] := by
          rw [← b36digit_append_data i j hi hj]
          exact hc
        simp only [List.mem_cons, List.not_mem_nil, or_false, List.mem_singleton] at hc2d
        rcases hc2d with rfl | rfl
        · exact hc1
        · exact hc2

/-- Witness for C7 at n = 37 (code "11") and s = "zz". -/
theorem C7_codec_bijection_witness :
    (37 < 1296 ∧ ENCODER[(37 : ℕ)]? = some (specB36 37)) ∧
    DECODER (specB36 37) = some 37 ∧
    (∃ n : ℕ, n < 1296 ∧ DECODER "zz" = some n ∧ ENCODER[n]? = some "zz") :=
  ⟨⟨by decide, C7_codec_bijection.1 37 (by decide)⟩,
   C7_codec_bijection.2.1 37 (by decide),
   C7_codec_bijection.2.2.1 "zz" (by decide)⟩

/-- C3 (code bug): on any executed VerticalTo the interpreter evaluates
`args[1]`, but V's declared arity is 1, so `args` has exactly one element
and the command raises IndexError instead of setting the pen's y and
appending (for lower-case v even the preceding relative adjustment adds
pen x, not pen y, to the single argument). -/
theorem C3_vertical_raises :
    compile_path [("d", "V5")] = Except.error PyErr.indexError ∧
    compile_path [("d", "M0 0v5")] = Except.error PyErr.indexError := by
  constructor <;> rfl

/-- C5 (code bug): `H`/`V` assign into the pen list in place, and that
list object is already the subline's last entry, so executing `H5` after
`M0 0L1 1` retroactively turns the previously appended point (1,1) into
(5,1) (and appends the same object again); the claimed frame property
would give [[(0,0),(1,1),(5,1)]]. -/
theorem C5_h_mutates_previous_point :
    compile_path [("d", "M0 0L1 1H5")] = Except.ok [[(0, 0), (5, 1), (5, 1)]] ∧
    compile_path [("d", "M0 0L1 1H5")] ≠ Except.ok [[(0, 0), (1, 1), (5, 1)]] := by
  have h1 : compile_path [("d", "M0 0L1 1H5")] = Except.ok [[(0, 0), (5, 1), (5, 1)]] := by
    have htok : scanPathToks "M0 0L1 1H5".data =
        [PTok.cmd 'M', PTok.num 0, PTok.num 0, PTok.cmd 'L', PTok.num 1, PTok.num 1,
         PTok.cmd 'H', PTok.num 5] := by
      simp [scanPathToks, scanPathToksF, matchFloat, isPathCmdChar, natOfDigits]
    unfold compile_path
    rw [show List.lookup "d" [("d", "M0 0L1 1H5")] = some "M0 0L1 1H5" from rfl]
    dsimp only
    rw [htok]
    rfl
  refine ⟨h1, fun h => ?_⟩
  have h2 : ([[((0 : ℚ), (0 : ℚ)), (5, 1), (5, 1)]] : List (List (ℚ × ℚ)))
      = [[(0, 0), (1, 1), (5, 1)]] := Except.ok.inj (h1.symm.trans h)
  simp at h2

/-- C4, counterexample: a MoveTo flushes the current subline whenever it
is non-empty, without the 2-point check, so `L5 5M0 0` puts the one-point
subline [(5,5)] into the interpreter's result. -/
theorem C4_counterexample :
    compile_path [("d", "L5 5M0 0")] = Except.ok [[(5, 5)]] ∧
    ¬ (∀ line, compile_path [("d", "L5 5M0 0")] = Except.ok line →
        ∀ s ∈ line, 2 ≤ s.length) := by
  have h1 : compile_path [("d", "L5 5M0 0")] = Except.ok [[(5, 5)]] := by
    have htok : scanPathToks "L5 5M0 0".data =
        [PTok.cmd 'L', PTok.num 5, PTok.num 5, PTok.cmd 'M', PTok.num 0, PTok.num 0] := by
      simp [scanPathToks, scanPathToksF, matchFloat, isPathCmdChar, natOfDigits]
    unfold compile_path
    rw [show List.lookup "d" [("d", "L5 5M0 0")] = some "L5 5M0 0" from rfl]
    dsimp only
    rw [htok]
    rfl
  refine ⟨h1, fun h => ?_⟩
  have := h [[(5, 5)]] h1 [(5, 5)] (by simp)
  simp at this

/-- C4, amended: only the final subline is length-checked (a subline
flushed by MoveTo is appended whenever non-empty, even with one point),
so what holds is that every subline in a successful result is non-empty. -/
theorem C4_amended_sublines_nonempty (attrib : List (String × String))
    (line : List (List (ℚ × ℚ))) (h : compile_path attrib = Except.ok line) :
    ∀ s ∈ line, s ≠ [] := by
  unfold compile_path at h
  split at h
  · cases h
  · split at h
    · cases h
    · rename_i fin hfold
      injection h with h
      subst h
      intro s hs
      rw [List.mem_map] at hs
      obtain ⟨sl, hsl, rfl⟩ := hs
      have hslne : sl ≠ [] := by
        by_cases hlen : fin.subline.length ≥ 2
        · rw [if_pos hlen] at hsl
          rcases List.mem_append.1 hsl with h1 | h1
          · exact foldlM_pathStep_line _ _ _ hfold (by simp [initPathState]) sl h1
          · have h2 : sl = fin.subline := by simpa using h1
            rw [h2]
            intro he
            rw [he] at hlen
            simp at hlen
        · rw [if_neg hlen] at hsl
          exact foldlM_pathStep_line _ _ _ hfold (by simp [initPathState]) sl hsl
      simpa using hslne

/-- C10: on a Stroke that is a single 4-character point token, the
simplifier pre-adds points[0], runs no loop iteration (start+1 is not
below the single-token length), and post-adds points[-1] - the same
token - so the result is the token duplicated, not the one-point Stroke
unchanged. -/
theorem C10_single_token_duplicated (s : String) (h4 : s.data.length = 4)
    (hall : ∀ c ∈ s.data, isB36Char c = true) :
    optimize s = Except.ok (s ++ s) := by
  have hne : s.data ≠ [] := by
    intro he
    rw [he] at h4
    simp at h4
  have hws : pySplit s = [s.data] :=
    pySplit_single s hne (fun c hc => isB36Char_not_ws c (hall c hc))
  have hfind : findall4 s.data = [s.data] := by
    rw [findall4_eq_chunks4 s.data hall]
    obtain ⟨c1, c2, c3, c4, hdata⟩ : ∃ c1 c2 c3 c4, s.data = [c1, c2, c3, c4] := by
      rcases hd : s.data with _ | ⟨a, _ | ⟨b, _ | ⟨c, _ | ⟨d, _ | ⟨e, t⟩⟩⟩⟩⟩ <;>
        rw [hd] at h4 <;> simp at h4
      · exact ⟨a, b, c, d, rfl⟩
    rw [hdata]
    rfl
  have hline : optimize_line s.data = Except.ok (s ++ s) := by
    simp only [optimize_line, hfind, List.map, string_mk_data]
    rw [if_neg (by simp)]
    rw [opt_outer_stop [s] 0 (by simp)]
    show Except.ok (s ++ "" ++ s) = _
    simp
  unfold optimize
  rw [hws]
  have hmap : List.mapM optimize_line [s.data] = Except.ok [s ++ s] := by
    rw [List.mapM_cons, List.mapM_nil, hline]
    rfl
  rw [hmap]
  rfl

theorem flatten_go_refKeep : ∀ (pts : List (ℤ × ℤ)) (prev : Option (ℤ × ℤ)),
    flatten_go prev (pts.map (fun p => PyPoint.ipt p.1 p.2))
      = ((refKeep prev pts).map (fun p => encodePoint p.1 p.2)).flatten := by
  intro pts
  induction pts with
  | nil => intro prev; rfl
  | cons p rest ih =>
    intro prev
    show flatten_go prev (PyPoint.ipt p.1 p.2 :: rest.map _) = _
    by_cases hb : specInBounds p
    · obtain ⟨hb1, hb2, hb3, hb4⟩ := hb
      unfold flatten_go refKeep
      rw [if_neg (by push_neg; omega), if_pos ⟨hb1, hb2, hb3, hb4⟩]
      cases prev with
      | none =>
        dsimp only
        rw [ih (some (p.1, p.2))]
        rfl
      | some pp =>
        dsimp only
        by_cases hd : 1 ≤ |pp.1 - p.1| ∨ 1 ≤ |pp.2 - p.2|
        · rw [if_pos (show |pp.1 - p.1| ≥ MERGE_DISTANCE ∨ |pp.2 - p.2| ≥ MERGE_DISTANCE from hd),
            if_pos hd, ih (some (p.1, p.2))]
          rfl
        · have hpeq : (p.1, p.2) = pp := by
            push_neg at hd
            obtain ⟨hd1, hd2⟩ := hd
            rw [abs_lt] at hd1 hd2
            have e1 : pp.1 = p.1 := by omega
            have e2 : pp.2 = p.2 := by omega
            rw [← e1, ← e2]
          rw [if_neg (show ¬(|pp.1 - p.1| ≥ MERGE_DISTANCE ∨ |pp.2 - p.2| ≥ MERGE_DISTANCE) from hd),
            if_neg hd, ih (some (p.1, p.2)), hpeq]
    · unfold flatten_go refKeep
      rw [if_pos (by
          unfold specInBounds at hb
          push_neg at hb
          by_cases h1 : p.1 < 0
          · omega
          · by_cases h2 : 800 < p.1
            · omega
            · by_cases h3 : p.2 < 0
              · omega
              · right; right; left
                omega),
        if_neg hb]
      exact ih prev

theorem refKeep_head_ne : ∀ (pts : List (ℤ × ℤ)) (q h0 : ℤ × ℤ),
    (refKeep (some q) pts).head? = some h0 → h0 ≠ q := by
  intro pts
  induction pts with
  | nil => intro q h0 h; cases h
  | cons p rest ih =>
    intro q h0 h
    unfold refKeep at h
    by_cases hb : specInBounds p
    · rw [if_pos hb] at h
      dsimp only at h
      by_cases hd : 1 ≤ |q.1 - p.1| ∨ 1 ≤ |q.2 - p.2|
      · rw [if_pos hd] at h
        simp only [List.head?_cons, Option.some.injEq] at h
        subst h
        intro he
        rw [he] at hd
        simp at hd
      · rw [if_neg hd] at h
        exact ih q h0 h
    · rw [if_neg hb] at h
      exact ih q h0 h

theorem refKeep_chain : ∀ (pts : List (ℤ × ℤ)) (prev : Option (ℤ × ℤ)),
    List.Chain' (fun a b => a ≠ b) (refKeep prev pts) := by
  intro pts
  induction pts with
  | nil =>
    intro prev
    simp [refKeep]
  | cons p rest ih =>
    intro prev
    unfold refKeep
    by_cases hb : specInBounds p
    · rw [if_pos hb]
      cases prev with
      | none =>
        dsimp only
        rw [List.chain'_cons']
        refine ⟨fun b hbmem => ?_, ih (some p)⟩
        exact (refKeep_head_ne rest p b hbmem).symm
      | some q =>
        dsimp only
        by_cases hd : 1 ≤ |q.1 - p.1| ∨ 1 ≤ |q.2 - p.2|
        · rw [if_pos hd, List.chain'_cons']
          refine ⟨fun b hbmem => ?_, ih (some p)⟩
          exact (refKeep_head_ne rest p b hbmem).symm
        · rw [if_neg hd]
          exact ih (some q)
    · rw [if_neg hb]
      exact ih prev

/-- C6: the bounds/merge filter drops out-of-bounds points without
affecting the previous-point comparison, always keeps the first retained
point, keeps a later point exactly when it differs from the last kept
point by at least 1 in x or y, and consecutive kept points therefore
always differ; the emitted Stroke is the kept points' encodings in order.
The second conjunct checks the spec's example (5,5),(5,5),(6,5) to
(5,5),(6,5). -/
theorem C6_bounds_merge_filter :
    (∀ pts : List (ℤ × ℤ),
      flatten_line (pts.map (fun p => PyPoint.ipt p.1 p.2))
        = String.join (((refKeep none pts).map (fun p => encodePoint p.1 p.2)).flatten) ∧
      List.Chain' (fun a b => a ≠ b) (refKeep none pts)) ∧
    flatten_line [PyPoint.ipt 5 5, PyPoint.ipt 5 5, PyPoint.ipt 6 5] = "05050605" := by
  refine ⟨fun pts => ⟨?_, refKeep_chain pts none⟩, ?_⟩
  · unfold flatten_line
    rw [flatten_go_refKeep pts none]
  · rfl

/-- C8: a Stroke of exactly 2 point tokens (8 alphabet characters) is
returned by the simplifier unchanged; and for any Stroke of at least 2
point tokens the simplified output is the first original token, then the
emitted interior tokens, then the last original token (`new_line` is
pre-seeded with `points[0]` and `points[-1]` is appended after the scan),
so it always begins with the first and ends with the last original
token. -/
theorem C8_optimize_preserves_ends (s : String)
    (hall : ∀ c ∈ s.data, isB36Char c = true)
    (hmod : s.data.length % 4 = 0) (hlen : 8 ≤ s.data.length) :
    (s.data.length = 8 → optimize s = Except.ok s) ∧
    (∃ mid : String, optimize s = Except.ok
      (String.mk (s.data.take 4) ++ mid ++ String.mk (s.data.drop (s.data.length - 4)))) := by
  have hne : s.data ≠ [] := by
    intro he
    rw [he] at hlen
    simp at hlen
  have hws : pySplit s = [s.data] :=
    pySplit_single s hne (fun c hc => isB36Char_not_ws c (hall c hc))
  have hfind : findall4 s.data = chunks4 s.data := findall4_eq_chunks4 _ hall
  have hplen : ((chunks4 s.data).map String.mk).length = s.data.length / 4 := by
    rw [List.length_map, chunks4_length_div]
  have hopt : ∀ r, optimize_line s.data = Except.ok r → optimize s = Except.ok r := by
    intro r hr
    unfold optimize
    rw [hws, List.mapM_cons, List.mapM_nil, hr]
    rfl
  have hP1 : s.data.length = 8 → optimize s = Except.ok s := by
    intro h8
    refine hopt s ?_
    simp only [optimize_line, hfind]
    rw [if_pos (by rw [hplen, h8])]
  refine ⟨hP1, ?_⟩
  by_cases h8 : s.data.length = 8
  · refine ⟨"", ?_⟩
    rw [hP1 h8]
    congr 1
    refine string_eq_of_data _ _ ?_
    show s.data = s.data.take 4 ++ [] ++ s.data.drop (s.data.length - 4)
    rw [h8]
    show s.data = s.data.take 4 ++ [] ++ s.data.drop 4
    simp
  · have h12 : 12 ≤ s.data.length := by omega
    refine ⟨opt_outer ((chunks4 s.data).map String.mk) 0, hopt _ ?_⟩
    simp only [optimize_line, hfind]
    rw [if_neg (by rw [hplen]; omega)]
    obtain ⟨c1, c2, c3, c4, rest, hdata⟩ :
        ∃ c1 c2 c3 c4 rest, s.data = c1 :: c2 :: c3 :: c4 :: rest := by
      rcases hd : s.data with _ | ⟨a, _ | ⟨b, _ | ⟨c, _ | ⟨d, t⟩⟩⟩⟩
      · exfalso; rw [hd] at hlen; simp at hlen
      · exfalso; rw [hd] at hlen; simp at hlen
      · exfalso; rw [hd] at hlen; simp at hlen
      · exfalso; rw [hd] at hlen; simp at hlen
      · exact ⟨a, b, c, d, t, rfl⟩
    have hpts : (chunks4 s.data).map String.mk
        = String.mk [c1, c2, c3, c4] :: (chunks4 rest).map String.mk := by
      rw [hdata]
      rfl
    rw [hpts]
    dsimp only
    rw [← hpts]
    have hhead : String.mk [c1, c2, c3, c4] = String.mk (s.data.take 4) := by
      rw [hdata]
      rfl
    have hlast2 : ((chunks4 s.data).map String.mk).getD
        (((chunks4 s.data).map String.mk).length - 1) ""
        = String.mk (s.data.drop (s.data.length - 4)) := by
      rw [List.getD_eq_getElem?_getD, ← List.getLast?_eq_getElem?, List.getLast?_map,
        chunks4_last_drop s.data hmod (by omega)]
      rfl
    rw [hhead, hlast2]

/-- Witness for C8 at the 2-token stroke "00000101". -/
theorem C8_optimize_preserves_ends_witness :
    optimize "00000101" = Except.ok "00000101" :=
  (C8_optimize_preserves_ends "00000101" (by decide) (by decide) (by decide)).1 (by decide)

/-- Witness for C10 at the token "0a0b". -/
theorem C10_single_token_duplicated_witness :
    optimize "0a0b" = Except.ok ("0a0b" ++ "0a0b") :=
  C10_single_token_duplicated "0a0b" (by decide) (by decide)

/-- Witness for the amended C4 at d = "M0 0L1 1". -/
theorem C4_amended_witness :
    compile_path [("d", "M0 0L1 1")] = Except.ok [[(0, 0), (1, 1)]] ∧
    ([((0 : ℚ), (0 : ℚ)), (1, 1)] : List (ℚ × ℚ)) ≠ [] := by
  have h1 : compile_path [("d", "M0 0L1 1")] = Except.ok [[(0, 0), (1, 1)]] := by
    have htok : scanPathToks "M0 0L1 1".data =
        [PTok.cmd 'M', PTok.num 0, PTok.num 0, PTok.cmd 'L', PTok.num 1, PTok.num 1] := by
      simp [scanPathToks, scanPathToksF, matchFloat, isPathCmdChar, natOfDigits]
    unfold compile_path
    rw [show List.lookup "d" [("d", "M0 0L1 1")] = some "M0 0L1 1" from rfl]
    dsimp only
    rw [htok]
    rfl
  exact ⟨h1, C4_amended_sublines_nonempty [("d", "M0 0L1 1")] [[(0, 0), (1, 1)]] h1
    [(0, 0), (1, 1)] (by simp)⟩

/-! ### The decimal printer: digits only, non-empty, left inverse of parsing -/

theorem digitChar_facts : ∀ m : ℕ, m < 10 → (Char.ofNat (48 + m)).toNat = 48 + m ∧
    (Char.ofNat (48 + m)).isDigit = true := by decide

theorem decDigitsF_spec : ∀ (fuel n : ℕ) (acc : List Char), n < fuel →
    decDigitsF fuel n acc = decDigits n ++ acc := by
  intro fuel
  induction fuel using Nat.strong_induction_on with
  | _ fuel ih =>
    intro n acc h
    match fuel, h with
    | f + 1, h =>
    show (if n / 10 = 0 then Char.ofNat (48 + n % 10) :: acc
        else decDigitsF f (n / 10) (Char.ofNat (48 + n % 10) :: acc)) = decDigits n ++ acc
    by_cases h10 : n / 10 = 0
    · rw [if_pos h10]
      show _ = decDigitsF (n + 1) n [] ++ acc
      show _ = (if n / 10 = 0 then [Char.ofNat (48 + n % 10)]
          else decDigitsF n (n / 10) [Char.ofNat (48 + n % 10)]) ++ acc
      rw [if_pos h10]
      rfl
    · rw [if_neg h10]
      have hlt : n / 10 < n := Nat.div_lt_self (by omega) (by omega)
      rw [ih f (by omega) (n / 10) (Char.ofNat (48 + n % 10) :: acc) (by omega)]
      show _ = decDigitsF (n + 1) n [] ++ acc
      show _ = (if n / 10 = 0 then [Char.ofNat (48 + n % 10)]
          else decDigitsF n (n / 10) [Char.ofNat (48 + n % 10)]) ++ acc
      rw [if_neg h10, ih n (by omega) (n / 10) [Char.ofNat (48 + n % 10)] (by omega)]
      simp

theorem natOfDigits_append (xs ys : List Char) :
    natOfDigits (xs ++ ys) = ys.foldl (fun a c => 10 * a + (c.toNat - 48)) (natOfDigits xs) := by
  unfold natOfDigits
  rw [List.foldl_append]

theorem natOfDigits_single_append (xs : List Char) (c : Char) :
    natOfDigits (xs ++ [c]) = 10 * natOfDigits xs + (c.toNat - 48) := by
  rw [natOfDigits_append]
  rfl

theorem decDigits_facts : ∀ n : ℕ, decDigits n ≠ [] ∧
    (∀ c ∈ decDigits n, c.isDigit = true) ∧ natOfDigits (decDigits n) = n := by
  intro n
  induction n using Nat.strong_induction_on with
  | _ n ih =>
    have hstep : decDigits n = (if n / 10 = 0 then [Char.ofNat (48 + n % 10)]
        else decDigitsF n (n / 10) [Char.ofNat (48 + n % 10)]) := rfl
    obtain ⟨hto, hdig⟩ := digitChar_facts (n % 10) (Nat.mod_lt _ (by omega))
    by_cases h10 : n / 10 = 0
    · rw [hstep, if_pos h10]
      refine ⟨by simp, ?_, ?_⟩
      · intro c hc
        simp at hc
        rw [hc]
        exact hdig
      · show natOfDigits ([] ++ [Char.ofNat (48 + n % 10)]) = n
        rw [natOfDigits_single_append]
        show 10 * 0 + _ = n
        rw [hto]
        omega
    · have hlt : n / 10 < n := Nat.div_lt_self (by omega) (by omega)
      obtain ⟨hne2, hdig2, hval2⟩ := ih (n / 10) hlt
      rw [hstep, if_neg h10, decDigitsF_spec n (n / 10) _ hlt]
      refine ⟨by simp, ?_, ?_⟩
      · intro c hc
        rw [List.mem_append] at hc
        rcases hc with hc | hc
        · exact hdig2 c hc
        · simp at hc
          rw [hc]
          exact hdig
      · rw [natOfDigits_single_append, hval2, hto]
        omega

/-! ### Scanner lemmas: how COMMAND_ARGV_P tokenizes the strings
data_to_svg writes -/

theorem takeWhile_all_append (p : Char → Bool) : ∀ (l1 l2 : List Char),
    (∀ c ∈ l1, p c = true) → (∀ c, l2.head? = some c → p c = false) →
    (l1 ++ l2).takeWhile p = l1 := by
  intro l1
  induction l1 with
  | nil =>
    intro l2 _ hr
    cases l2 with
    | nil => rfl
    | cons c r =>
      show List.takeWhile p (c :: r) = []
      rw [List.takeWhile_cons, hr c rfl]
      rfl
  | cons d l ih =>
    intro l2 hd hr
    show List.takeWhile p (d :: (l ++ l2)) = d :: l
    rw [List.takeWhile_cons, hd d (by simp)]
    rw [ih l2 (fun c hc => hd c (by simp [hc])) hr]
    rfl

theorem matchFloat_digits (ds rest : List Char) (hne : ds ≠ [])
    (hd : ∀ c ∈ ds, c.isDigit = true)
    (hr : ∀ c, rest.head? = some c → c.isDigit = false ∧ c ≠ '.' ∧ c ≠ 'e' ∧ c ≠ 'E') :
    matchFloat true (ds ++ rest) = some ((natOfDigits ds : ℚ), ds.length) := by
  obtain ⟨d, ds2, rfl⟩ : ∃ d ds2, ds = d :: ds2 := by
    cases ds with
    | nil => exact absurd rfl hne
    | cons a b => exact ⟨a, b, rfl⟩
  have hd0 : d.isDigit = true := hd d (by simp)
  have hh : ((d :: ds2) ++ rest).head? = some d := rfl
  have hdm : ¬(((d :: ds2) ++ rest).head? = some '-') := by
    rw [hh]
    intro hc
    have : d = '-' := by injection hc
    subst this
    exact absurd hd0 (by decide)
  have hdp : ¬(((d :: ds2) ++ rest).head? = some '+') := by
    rw [hh]
    intro hc
    have : d = '+' := by injection hc
    subst this
    exact absurd hd0 (by decide)
  have htw : ((d :: ds2) ++ rest).takeWhile Char.isDigit = d :: ds2 :=
    takeWhile_all_append _ _ _ hd (fun c hc => (hr c hc).1)
  have hdrop : ((d :: ds2) ++ rest).drop (d :: ds2).length = rest := by
    exact List.drop_left _ _
  unfold matchFloat
  rw [if_neg hdm, if_neg hdp]
  dsimp only
  rw [htw]
  rw [if_neg (by simp)]
  rw [hdrop]
  have hnotdot : ¬(rest.head? = some '.') := fun hc => (hr _ hc).2.1 rfl
  rw [if_neg hnotdot]
  dsimp only
  have hnote : ¬(rest.head? = some 'e' ∨ (true = true ∧ rest.head? = some 'E')) := by
    rintro (hc | ⟨-, hc⟩)
    · exact (hr _ hc).2.2.1 rfl
    · exact (hr _ hc).2.2.2 rfl
  rw [if_neg hnote]
  dsimp only
  norm_num
  rfl

theorem scanPathToksF_irrel : ∀ (f1 f2 : ℕ) (l : List Char), l.length ≤ f1 → l.length ≤ f2 →
    scanPathToksF f1 l = scanPathToksF f2 l := by
  intro f1
  induction f1 with
  | zero =>
    intro f2 l h1 _
    have : l = [] := List.length_eq_zero.1 (by omega)
    subst this
    cases f2 <;> rfl
  | succ f1 ih =>
    intro f2 l h1 h2
    cases f2 with
    | zero =>
      have : l = [] := List.length_eq_zero.1 (by omega)
      subst this
      rfl
    | succ f2 =>
      cases l with
      | nil => rfl
      | cons c rest =>
        simp only [List.length_cons] at h1 h2
        show (if isPathCmdChar c then PTok.cmd c :: scanPathToksF f1 rest
            else match matchFloat true (c :: rest) with
              | some (q, n) => PTok.num q :: scanPathToksF f1 (rest.drop (n - 1))
              | none => scanPathToksF f1 rest) =
          (if isPathCmdChar c then PTok.cmd c :: scanPathToksF f2 rest
            else match matchFloat true (c :: rest) with
              | some (q, n) => PTok.num q :: scanPathToksF f2 (rest.drop (n - 1))
              | none => scanPathToksF f2 rest)
        split
        · rw [ih f2 rest (by omega) (by omega)]
        · cases hm : matchFloat true (c :: rest) with
          | none => exact ih f2 rest (by omega) (by omega)
          | some qn =>
            obtain ⟨q, n⟩ := qn
            have hlen : (rest.drop (n - 1)).length ≤ rest.length := by
              rw [List.length_drop]; omega
            show PTok.num q :: scanPathToksF f1 (rest.drop (n - 1))
              = PTok.num q :: scanPathToksF f2 (rest.drop (n - 1))
            rw [ih f2 (rest.drop (n - 1)) (by omega) (by omega)]

theorem scanPathToks_cmd (c : Char) (rest : List Char) (hc : isPathCmdChar c = true) :
    scanPathToks (c :: rest) = PTok.cmd c :: scanPathToks rest := by
  show (if isPathCmdChar c then PTok.cmd c :: scanPathToksF rest.length rest
      else match matchFloat true (c :: rest) with
        | some (q, n) => PTok.num q :: scanPathToksF rest.length (rest.drop (n - 1))
        | none => scanPathToksF rest.length rest) = _
  rw [if_pos hc]
  rfl

theorem scanPathToks_space (rest : List Char) :
    scanPathToks (' ' :: rest) = scanPathToks rest := rfl

theorem isPathCmdChar_digit (c : Char) (h : c.isDigit = true) : isPathCmdChar c = false := by
  by_contra hc
  rw [Bool.not_eq_false] at hc
  simp [isPathCmdChar] at hc
  rcases hc with rfl|rfl|rfl|rfl|rfl|rfl|rfl|rfl|rfl|rfl|rfl|rfl
  all_goals exact absurd h (by decide)

theorem scanPathToks_digits (ds rest : List Char) (hne : ds ≠ [])
    (hd : ∀ c ∈ ds, c.isDigit = true)
    (hr : ∀ c, rest.head? = some c → c.isDigit = false ∧ c ≠ '.' ∧ c ≠ 'e' ∧ c ≠ 'E') :
    scanPathToks (ds ++ rest) = PTok.num (natOfDigits ds) :: scanPathToks rest := by
  obtain ⟨d, ds2, rfl⟩ : ∃ d ds2, ds = d :: ds2 := by
    cases ds with
    | nil => exact absurd rfl hne
    | cons a b => exact ⟨a, b, rfl⟩
  have hd0 : d.isDigit = true := hd d (by simp)
  have hm := matchFloat_digits (d :: ds2) rest hne hd hr
  show (if isPathCmdChar d then PTok.cmd d :: scanPathToksF (ds2 ++ rest).length (ds2 ++ rest)
      else match matchFloat true (d :: (ds2 ++ rest)) with
        | some (q, n) =>
            PTok.num q :: scanPathToksF (ds2 ++ rest).length ((ds2 ++ rest).drop (n - 1))
        | none => scanPathToksF (ds2 ++ rest).length (ds2 ++ rest)) = _
  rw [isPathCmdChar_digit d hd0]
  simp only [Bool.false_eq_true, if_false]
  have hm2 : matchFloat true (d :: (ds2 ++ rest))
      = some ((natOfDigits (d :: ds2) : ℚ), (d :: ds2).length) := hm
  rw [hm2]
  simp only [List.length_cons, Nat.add_sub_cancel]
  rw [List.drop_left]
  congr 1
  show scanPathToksF (ds2 ++ rest).length rest = scanPathToks rest
  exact scanPathToksF_irrel _ _ rest (by simp) (le_refl _)

theorem lTail_headOk (ps : List (ℕ × ℕ)) :
    ∀ c, (lTailChars ps).head? = some c →
      c.isDigit = false ∧ c ≠ '.' ∧ c ≠ 'e' ∧ c ≠ 'E' := by
  intro c hc
  cases ps with
  | nil => simp [lTailChars] at hc
  | cons p ps =>
    have : c = 'L' := by
      simp [lTailChars] at hc
      exact hc.symm
    subst this
    exact ⟨by decide, by decide, by decide, by decide⟩

theorem scan_pair (p : ℕ × ℕ) (rest : List Char)
    (hr : ∀ c, rest.head? = some c → c.isDigit = false ∧ c ≠ '.' ∧ c ≠ 'e' ∧ c ≠ 'E') :
    scanPathToks (pairChars p ++ rest)
      = PTok.num p.1 :: PTok.num p.2 :: scanPathToks rest := by
  obtain ⟨hne1, hdig1, hval1⟩ := decDigits_facts p.1
  obtain ⟨hne2, hdig2, hval2⟩ := decDigits_facts p.2
  have hsplit : pairChars p ++ rest = decDigits p.1 ++ (' ' :: (decDigits p.2 ++ rest)) := by
    simp [pairChars]
  rw [hsplit]
  rw [scanPathToks_digits _ _ hne1 hdig1
    (fun c hc => by
      have : c = ' ' := by
        simp at hc
        exact hc.symm
      subst this
      exact ⟨by decide, by decide, by decide, by decide⟩)]
  rw [scanPathToks_space]
  rw [scanPathToks_digits _ _ hne2 hdig2 hr]
  rw [hval1, hval2]

theorem scan_lTail : ∀ ps : List (ℕ × ℕ), scanPathToks (lTailChars ps)
    = lToksQ (ps.map (fun p => ((p.1 : ℚ), (p.2 : ℚ)))) := by
  intro ps
  induction ps with
  | nil => rfl
  | cons p ps ih =>
    have hsplit : lTailChars (p :: ps) = 'L' :: (pairChars p ++ lTailChars ps) := by
      simp [lTailChars]
    rw [hsplit, scanPathToks_cmd _ _ (by decide), scan_pair p _ (lTail_headOk ps), ih]
    rfl

theorem scan_stroke (p : ℕ × ℕ) (ps : List (ℕ × ℕ)) :
    scanPathToks ('M' :: (pairChars p ++ lTailChars ps))
      = PTok.cmd 'M' :: PTok.num p.1 :: PTok.num p.2
          :: lToksQ (ps.map (fun q => ((q.1 : ℚ), (q.2 : ℚ)))) := by
  rw [scanPathToks_cmd _ _ (by decide), scan_pair p _ (lTail_headOk ps), scan_lTail]

/-! ### Running the interpreter over a MoveTo/LineTo token run -/

theorem pathStep_cmdL (st : List (ℚ × ℚ)) (p : ℕ) (ln : List (List ℕ)) (sub : List ℕ)
    (pc : Option Char) :
    pathStep ⟨st, p, ln, sub, none, pc, []⟩ (PTok.cmd 'L')
      = Except.ok ⟨st, p, ln, sub, some 'L', pc, []⟩ := rfl

theorem pathStep_L_num1 (st : List (ℚ × ℚ)) (p : ℕ) (ln : List (List ℕ)) (sub : List ℕ)
    (pc : Option Char) (x : ℚ) :
    pathStep ⟨st, p, ln, sub, some 'L', pc, []⟩ (PTok.num x)
      = Except.ok ⟨st, p, ln, sub, some 'L', pc, [x]⟩ := rfl

theorem pathStep_L_num2_afterM (st : List (ℚ × ℚ)) (p : ℕ) (ln : List (List ℕ))
    (sub : List ℕ) (x y : ℚ) :
    pathStep ⟨st, p, ln, sub, some 'L', some 'M', [x]⟩ (PTok.num y)
      = Except.ok ⟨st ++ [(x, y)], st.length, ln, (sub ++ [p]) ++ [st.length],
          none, some 'L', []⟩ := rfl

theorem pathStep_L_num2 (st : List (ℚ × ℚ)) (p : ℕ) (ln : List (List ℕ)) (sub : List ℕ)
    (pc : Char) (hpc : pc ≠ 'M') (x y : ℚ) :
    pathStep ⟨st, p, ln, sub, some 'L', some pc, [x]⟩ (PTok.num y)
      = Except.ok ⟨st ++ [(x, y)], st.length, ln, sub ++ [st.length],
          none, some 'L', []⟩ := by
  show execCommand ⟨st, p, ln, sub, some 'L', some pc, [x, y]⟩ 'L' = _
  simp only [execCommand, show Char.toUpper 'L' = 'L' from rfl,
    show Char.isLower 'L' = false from rfl]
  rw [if_neg (fun hAnd => hpc (Option.some.inj hAnd.1))]
  rfl

theorem pathStep_cmdM : pathStep initPathState (PTok.cmd 'M')
    = Except.ok ⟨[(0, 0)], 0, [], [], some 'M', none, []⟩ := rfl

theorem pathStep_M_num1 (x : ℚ) :
    pathStep ⟨[(0, 0)], 0, [], [], some 'M', none, []⟩ (PTok.num x)
      = Except.ok ⟨[(0, 0)], 0, [], [], some 'M', none, [x]⟩ := rfl

theorem pathStep_M_num2 (x y : ℚ) :
    pathStep ⟨[(0, 0)], 0, [], [], some 'M', none, [x]⟩ (PTok.num y)
      = Except.ok ⟨[(0, 0), (x, y)], 1, [], [], none, some 'M', []⟩ := rfl

theorem range_map_add_succ (a n : ℕ) :
    (List.range (n + 1)).map (fun i => a + i) = a :: (List.range n).map (fun i => (a + 1) + i) := by
  rw [List.range_succ_eq_map, List.map_cons, List.map_map]
  congr 1
  refine List.map_congr_left (fun i _ => ?_)
  show a + Nat.succ i = a + 1 + i
  omega

theorem run_Ls : ∀ (qs : List (ℚ × ℚ)) (st : List (ℚ × ℚ)) (p : ℕ) (ln : List (List ℕ))
    (sub : List ℕ) (pc : Char), pc ≠ 'M' →
    ∃ p2 pc2, pc2 ≠ 'M' ∧
      (lToksQ qs).foldlM pathStep (⟨st, p, ln, sub, none, some pc, []⟩ : PathState) =
        Except.ok ⟨st ++ qs, p2, ln,
          sub ++ (List.range qs.length).map (fun i => st.length + i), none, some pc2, []⟩ := by
  intro qs
  induction qs with
  | nil =>
    intro st p ln sub pc hpc
    refine ⟨p, pc, hpc, ?_⟩
    show (Except.ok (⟨st, p, ln, sub, none, some pc, []⟩ : PathState) : Except PyErr PathState)
      = _
    simp
  | cons q qs ih =>
    intro st p ln sub pc hpc
    obtain ⟨p2, pc2, hpc2, hrun⟩ := ih (st ++ [q]) st.length ln (sub ++ [st.length]) 'L'
      (by decide)
    refine ⟨p2, pc2, hpc2, ?_⟩
    show (PTok.cmd 'L' :: PTok.num q.1 :: PTok.num q.2 :: lToksQ qs).foldlM pathStep _ = _
    rw [List.foldlM_cons, pathStep_cmdL, except_ok_bind, List.foldlM_cons, pathStep_L_num1,
      except_ok_bind, List.foldlM_cons, pathStep_L_num2 st p ln sub pc hpc q.1 q.2,
      except_ok_bind]
    rw [hrun]
    have hst : (st ++ [q]) ++ qs = st ++ q :: qs := by simp
    have hsub : (sub ++ [st.length]) ++ (List.range qs.length).map (fun i => (st ++ [q]).length + i)
        = sub ++ (List.range (q :: qs).length).map (fun i => st.length + i) := by
      rw [List.length_cons, range_map_add_succ st.length qs.length, List.append_assoc]
      congr 1
      show st.length :: List.map (fun i => (st ++ [q]).length + i) (List.range qs.length)
        = st.length :: List.map (fun i => st.length + 1 + i) (List.range qs.length)
      congr 1
      refine List.map_congr_left (fun i _ => ?_)
      simp only [List.length_append, List.length_cons, List.length_nil]
    rw [hst, hsub]

theorem run_M (x0 y0 : ℚ) (q : ℚ × ℚ) (qs : List (ℚ × ℚ)) :
    ∃ p2 pc2,
      (PTok.cmd 'M' :: PTok.num x0 :: PTok.num y0 :: lToksQ (q :: qs)).foldlM
          pathStep initPathState
        = Except.ok ⟨(0, 0) :: (x0, y0) :: q :: qs, p2, [],
            (List.range (qs.length + 2)).map (fun i => 1 + i), none, some pc2, []⟩ := by
  obtain ⟨p2, pc2, hpc2, hrun⟩ := run_Ls qs [(0, 0), (x0, y0), q] 2 [] [1, 2] 'L' (by decide)
  refine ⟨p2, pc2, ?_⟩
  rw [List.foldlM_cons, pathStep_cmdM, except_ok_bind, List.foldlM_cons, pathStep_M_num1,
    except_ok_bind, List.foldlM_cons, pathStep_M_num2, except_ok_bind]
  show (PTok.cmd 'L' :: PTok.num q.1 :: PTok.num q.2 :: lToksQ qs).foldlM pathStep _ = _
  rw [List.foldlM_cons, pathStep_cmdL, except_ok_bind, List.foldlM_cons, pathStep_L_num1,
    except_ok_bind, List.foldlM_cons, pathStep_L_num2_afterM, except_ok_bind]
  show (lToksQ qs).foldlM pathStep
      (⟨[(0, 0), (x0, y0), q], 2, [], [1, 2], none, some 'L', []⟩ : PathState) = _
  rw [hrun]
  have hsub : ([1, 2] : List ℕ) ++ (List.range qs.length).map (fun i => 3 + i)
      = (List.range (qs.length + 2)).map (fun i => 1 + i) := by
    rw [show qs.length + 2 = 2 + qs.length from by omega, List.range_add, List.map_append,
      List.map_map]
    congr 1
    refine List.map_congr_left (fun i _ => ?_)
    show 3 + i = 1 + (2 + i)
    omega
  show Except.ok (⟨[(0, 0), (x0, y0), q] ++ qs, p2, [],
    ([1, 2] : List ℕ) ++ (List.range qs.length).map (fun i => 3 + i), none, some pc2, []⟩ :
      PathState) = _
  rw [hsub]
  rfl

/-! ### The d attribute of data_to_svg, character by character -/

theorem intercalate_go_data : ∀ (as : List String) (acc s : String),
    (String.intercalate.go acc s as).data
      = acc.data ++ (as.map (fun a => s.data ++ a.data)).flatten := by
  intro as
  induction as with
  | nil =>
    intro acc s
    simp [String.intercalate.go]
  | cons a as ih =>
    intro acc s
    show (String.intercalate.go (acc ++ s ++ a) s as).data = _
    rw [ih]
    simp [List.append_assoc]

theorem decodePair_data (ch : List Char) : (decodePair ch).data = pairChars (tokenXY ch) := by
  show (String.mk _ ++ " " ++ String.mk _).data = _
  rw [String.data_append, String.data_append, List.append_assoc]
  rfl

theorem strokeD_data (tok : List Char) (hall : ∀ c ∈ tok, isB36Char c = true)
    (ch0 : List Char) (chs : List (List Char)) (hch : chunks4 tok = ch0 :: chs) :
    (strokeD tok).data
      = 'M' :: (pairChars (tokenXY ch0) ++ lTailChars (chs.map tokenXY)) := by
  unfold strokeD
  rw [String.data_append, findall4_eq_chunks4 tok hall, hch, List.map_cons]
  show 'M' :: (String.intercalate.go (decodePair ch0) "L" (chs.map decodePair)).data = _
  rw [intercalate_go_data, decodePair_data]
  congr 2
  unfold lTailChars
  rw [List.map_map, List.map_map]
  refine congrArg List.flatten (List.map_congr_left (fun ch _ => ?_))
  show "L".data ++ (decodePair ch).data = 'L' :: pairChars (tokenXY ch)
  rw [decodePair_data]
  rfl

/-! ### Dereferencing the final subline -/

theorem getD_range_self : ∀ (l : List (ℚ × ℚ)),
    (List.range l.length).map (fun i => l.getD i (0, 0)) = l := by
  intro l
  induction l with
  | nil => rfl
  | cons a l ih =>
    rw [List.length_cons, List.range_succ_eq_map, List.map_cons, List.map_map]
    have h2 : List.map ((fun i => (a :: l).getD i (0, 0)) ∘ Nat.succ) (List.range l.length)
        = l := by
      rw [show ((fun i => (a :: l).getD i (0, 0)) ∘ Nat.succ)
        = (fun i => l.getD i (0, 0)) from funext (fun i => rfl)]
      exact ih
    rw [h2]
    rfl

theorem deref_shift (l : List (ℚ × ℚ)) (z : ℚ × ℚ) :
    ((List.range l.length).map (fun i => 1 + i)).map (fun i => (z :: l).getD i (0, 0)) = l := by
  rw [List.map_map]
  have hfun : ∀ i ∈ List.range l.length,
      ((fun i => (z :: l).getD i (0, 0)) ∘ (fun i => 1 + i)) i = l.getD i (0, 0) := by
    intro i _
    show (z :: l).getD (1 + i) (0, 0) = l.getD i (0, 0)
    rw [show 1 + i = i + 1 from by omega]
    rfl
  rw [List.map_congr_left hfun]
  exact getD_range_self l

theorem compile_path_of_run (attrib : List (String × String)) (d : String)
    (hd : attrib.lookup "d" = some d) (fin : PathState)
    (hrun : (scanPathToks d.data).foldlM pathStep initPathState = Except.ok fin)
    (hsub : fin.subline.length ≥ 2) :
    compile_path attrib = Except.ok ((fin.line ++ [fin.subline]).map
      (fun sl => sl.map (fun i => fin.store.getD i (0, 0)))) := by
  unfold compile_path
  rw [hd]
  dsimp only
  rw [hrun]
  dsimp only
  rw [if_pos hsub]

theorem compile_path_stroke (tok : List Char) (h : goodStroke tok) :
    compile_path (dataPathAttrib tok)
      = Except.ok [(chunks4 tok).map
          (fun ch => (((tokenXY ch).1 : ℚ), ((tokenXY ch).2 : ℚ)))] := by
  obtain ⟨hall, hmod, hlen, -, -⟩ := h
  have h2 : 2 ≤ (chunks4 tok).length := by
    rw [chunks4_length_div]
    omega
  obtain ⟨ch0, ch1, chs, hch⟩ : ∃ ch0 ch1 chs, chunks4 tok = ch0 :: ch1 :: chs := by
    cases hc : chunks4 tok with
    | nil => rw [hc] at h2; simp at h2
    | cons a t =>
      cases t with
      | nil => rw [hc] at h2; simp at h2
      | cons b u => exact ⟨a, b, u, rfl⟩
  have hscan : scanPathToks (strokeD tok).data
      = PTok.cmd 'M' :: PTok.num ((tokenXY ch0).1 : ℚ) :: PTok.num ((tokenXY ch0).2 : ℚ)
          :: lToksQ ((((tokenXY ch1).1 : ℚ), ((tokenXY ch1).2 : ℚ))
            :: (chs.map tokenXY).map (fun q => ((q.1 : ℚ), (q.2 : ℚ)))) := by
    rw [strokeD_data tok hall ch0 (ch1 :: chs) hch,
      scan_stroke (tokenXY ch0) ((ch1 :: chs).map tokenXY)]
    simp only [List.map_cons]
  obtain ⟨p2, pc2, hrun⟩ := run_M ((tokenXY ch0).1 : ℚ) ((tokenXY ch0).2 : ℚ)
    (((tokenXY ch1).1 : ℚ), ((tokenXY ch1).2 : ℚ))
    ((chs.map tokenXY).map (fun q => ((q.1 : ℚ), (q.2 : ℚ))))
  rw [← hscan] at hrun
  refine (compile_path_of_run (dataPathAttrib tok) (strokeD tok) rfl _ hrun (by simp)).trans ?_
  dsimp only
  simp only [List.nil_append, List.map_cons, List.map_nil]
  congr 1
  congr 1
  have hql : (((((tokenXY ch0).1 : ℚ), ((tokenXY ch0).2 : ℚ))
      :: (((tokenXY ch1).1 : ℚ), ((tokenXY ch1).2 : ℚ))
      :: (chs.map tokenXY).map (fun q => ((q.1 : ℚ), (q.2 : ℚ)))) : List (ℚ × ℚ)).length
      = ((chs.map tokenXY).map (fun q : ℕ × ℕ => ((q.1 : ℚ), (q.2 : ℚ)))).length + 2 := by
    simp
  rw [show ((chs.map tokenXY).map (fun q : ℕ × ℕ => ((q.1 : ℚ), (q.2 : ℚ)))).length + 2
    = (((((tokenXY ch0).1 : ℚ), ((tokenXY ch0).2 : ℚ))
      :: (((tokenXY ch1).1 : ℚ), ((tokenXY ch1).2 : ℚ))
      :: (chs.map tokenXY).map (fun q => ((q.1 : ℚ), (q.2 : ℚ)))) : List (ℚ × ℚ)).length
    from hql.symm]
  rw [deref_shift]
  rw [hch, List.map_cons, List.map_cons, List.map_map]
  congr 2

/-! ### The transform stage on whole-number path output -/

theorem pyround_natCast (n : ℕ) : pyround ((n : ℚ)) = (n : ℤ) := by
  unfold pyround
  rw [show ⌊(n : ℚ)⌋ = (n : ℤ) from Int.floor_natCast n]
  rw [if_pos]
  rw [show ((n : ℤ) : ℚ) = (n : ℚ) from by push_cast; rfl]
  rw [sub_self]
  norm_num

theorem transform_stroke (chsAll : List (List Char)) :
    apply_transform none
        [chsAll.map (fun ch => (((tokenXY ch).1 : ℚ), ((tokenXY ch).2 : ℚ)))]
      = [chsAll.map (fun ch => PyPoint.ipt ((tokenXY ch).1 : ℤ) ((tokenXY ch).2 : ℤ))] := by
  unfold apply_transform
  simp only [List.map_cons, List.map_nil, List.map_map]
  congr 2
  funext ch
  show PyPoint.ipt (pyround ((tokenXY ch).1 : ℚ)) (pyround ((tokenXY ch).2 : ℚ)) = _
  rw [pyround_natCast, pyround_natCast]

/-! ### The bounds/merge filter keeps every point of a well-formed stroke -/

theorem neChainB_chain : ∀ l : List (List Char), neChainB l = true →
    List.Chain' (fun a b => tokenXY a ≠ tokenXY b) l := by
  intro l
  match l with
  | [] => intro _; simp
  | [a] => intro _; simp
  | a :: b :: rest =>
    intro h
    show List.Chain' _ (a :: b :: rest)
    have h2 : (decide (tokenXY a ≠ tokenXY b) && neChainB (b :: rest)) = true := h
    rw [Bool.and_eq_true] at h2
    rw [List.chain'_cons]
    exact ⟨of_decide_eq_true h2.1, neChainB_chain (b :: rest) h2.2⟩

theorem refKeep_all : ∀ (pts : List (ℤ × ℤ)) (prev : Option (ℤ × ℤ)),
    (∀ p ∈ pts, specInBounds p) → List.Chain' (fun a b => a ≠ b) pts →
    (∀ q h0, prev = some q → pts.head? = some h0 → h0 ≠ q) →
    refKeep prev pts = pts := by
  intro pts
  induction pts with
  | nil => intro prev _ _ _; rfl
  | cons p rest ih =>
    intro prev hb hc hh
    have hbp : specInBounds p := hb p (by simp)
    have hcrest : List.Chain' (fun a b => a ≠ b) rest := (List.chain'_cons'.1 hc).2
    have hhead : ∀ h0, rest.head? = some h0 → h0 ≠ p := by
      intro h0 hh0
      exact fun he => ((List.chain'_cons'.1 hc).1 h0 hh0) he.symm
    unfold refKeep
    rw [if_pos hbp]
    cases prev with
    | none =>
      dsimp only
      rw [ih (some p) (fun x hx => hb x (by simp [hx])) hcrest
        (fun q h0 hq hh0 => by
          injection hq with hq2
          rw [← hq2]
          exact hhead h0 hh0)]
    | some q =>
      dsimp only
      have hne : p ≠ q := hh q p rfl rfl
      have hdiff : 1 ≤ |q.1 - p.1| ∨ 1 ≤ |q.2 - p.2| := by
        by_contra hcon
        push_neg at hcon
        obtain ⟨hc1, hc2⟩ := hcon
        rw [abs_lt] at hc1 hc2
        exact hne (Prod.ext (by omega) (by omega))
      rw [if_pos hdiff]
      rw [ih (some p) (fun x hx => hb x (by simp [hx])) hcrest
        (fun q2 h0 hq hh0 => by
          injection hq with hq2
          rw [← hq2]
          exact hhead h0 hh0)]

/-! ### Re-encoding the kept points reproduces the stroke text -/

theorem chunks4_mem : ∀ (l : List Char) (ch : List Char), ch ∈ chunks4 l →
    ch.length = 4 ∧ ∀ c ∈ ch, c ∈ l := by
  suffices H : ∀ (n : ℕ) (l : List Char), l.length ≤ n → ∀ ch ∈ chunks4 l,
      ch.length = 4 ∧ ∀ c ∈ ch, c ∈ l from fun l ch h => H l.length l (le_refl _) ch h
  intro n
  induction n with
  | zero =>
    intro l hl ch hch
    have : l = [] := List.length_eq_zero.1 (by omega)
    subst this
    simp [chunks4] at hch
  | succ n ih =>
    intro l hl ch hch
    rcases l with _ | ⟨c1, _ | ⟨c2, _ | ⟨c3, _ | ⟨c4, rest⟩⟩⟩⟩
    · simp [chunks4] at hch
    · simp [chunks4] at hch
    · simp [chunks4] at hch
    · simp [chunks4] at hch
    · rw [show chunks4 (c1 :: c2 :: c3 :: c4 :: rest)
        = [c1, c2, c3, c4] :: chunks4 rest from rfl] at hch
      rcases List.mem_cons.1 hch with h | h
      · subst h
        refine ⟨rfl, fun c hc => ?_⟩
        simp at hc
        rcases hc with rfl | rfl | rfl | rfl <;> simp
      · obtain ⟨h4, hmem⟩ := ih rest (by simp at hl; omega) ch h
        refine ⟨h4, fun c hc => ?_⟩
        exact List.mem_cons_of_mem c1 (List.mem_cons_of_mem c2 (List.mem_cons_of_mem c3
          (List.mem_cons_of_mem c4 (hmem c hc))))

theorem encodePoint_token (c1 c2 c3 c4 : Char)
    (h1 : isB36Char c1 = true) (h2 : isB36Char c2 = true)
    (h3 : isB36Char c3 = true) (h4 : isB36Char c4 = true) :
    encodePoint ((tokenXY [c1, c2, c3, c4]).1 : ℤ) ((tokenXY [c1, c2, c3, c4]).2 : ℤ)
      = [String.mk [c1, c2], String.mk [c3, c4]] := by
  have ht : tokenXY [c1, c2, c3, c4]
      = (36 * b36val c1 + b36val c2, 36 * b36val c3 + b36val c4) := by
    unfold tokenXY
    rw [show List.take 2 [c1, c2, c3, c4] = [c1, c2] from rfl,
      show List.drop 2 [c1, c2, c3, c4] = [c3, c4] from rfl]
    rw [DECODER_pair c1 c2 h1 h2, DECODER_pair c3 c4 h3 h4]
    rfl
  rw [ht]
  unfold encodePoint
  rw [show (((36 * b36val c1 + b36val c2, 36 * b36val c3 + b36val c4) :
      ℕ × ℕ).1 : ℤ).toNat = 36 * b36val c1 + b36val c2 from Int.toNat_natCast _]
  rw [show (((36 * b36val c1 + b36val c2, 36 * b36val c3 + b36val c4) :
      ℕ × ℕ).2 : ℤ).toNat = 36 * b36val c3 + b36val c4 from Int.toNat_natCast _]
  rw [List.getD_eq_getElem?_getD, List.getD_eq_getElem?_getD]
  rw [ENCODER_pair c1 c2 h1 h2, ENCODER_pair c3 c4 h3 h4]
  rfl

theorem encode_chunk (ch : List Char) (h4 : ch.length = 4)
    (hab : ∀ c ∈ ch, isB36Char c = true) :
    encodePoint ((tokenXY ch).1 : ℤ) ((tokenXY ch).2 : ℤ)
      = [String.mk (ch.take 2), String.mk (ch.drop 2)] := by
  obtain ⟨c1, c2, c3, c4, rfl⟩ : ∃ c1 c2 c3 c4, ch = [c1, c2, c3, c4] := by
    rcases ch with _ | ⟨c1, _ | ⟨c2, _ | ⟨c3, _ | ⟨c4, rest⟩⟩⟩⟩
    · simp at h4
    · simp at h4
    · simp at h4
    · simp at h4
    · have hr : rest = [] := by
        simp at h4
        exact h4
      subst hr
      exact ⟨c1, c2, c3, c4, rfl⟩
  exact encodePoint_token c1 c2 c3 c4 (hab _ (by simp)) (hab _ (by simp))
    (hab _ (by simp)) (hab _ (by simp))

theorem join_foldl_data : ∀ (l : List String) (acc : String),
    (l.foldl (fun r s => r ++ s) acc).data = acc.data ++ (l.map String.data).flatten := by
  intro l
  induction l with
  | nil => intro acc; simp
  | cons a l ih =>
    intro acc
    show (l.foldl (fun r s => r ++ s) (acc ++ a)).data = _
    rw [ih]
    simp [List.append_assoc]

theorem join_data (l : List String) :
    (String.join l).data = (l.map String.data).flatten := by
  show (l.foldl (fun r s => r ++ s) "").data = _
  rw [join_foldl_data]
  rfl

theorem chunks4_reassemble : ∀ l : List Char, l.length % 4 = 0 →
    ((((chunks4 l).map (fun ch => [String.mk (ch.take 2), String.mk (ch.drop 2)])).flatten).map
      String.data).flatten = l := by
  suffices H : ∀ (n : ℕ) (l : List Char), l.length ≤ n → l.length % 4 = 0 →
      ((((chunks4 l).map
        (fun ch => [String.mk (ch.take 2), String.mk (ch.drop 2)])).flatten).map
          String.data).flatten = l from fun l h => H l.length l (le_refl _) h
  intro n
  induction n with
  | zero =>
    intro l hl _
    have : l = [] := List.length_eq_zero.1 (by omega)
    subst this
    rfl
  | succ n ih =>
    intro l hl hmod
    rcases l with _ | ⟨c1, _ | ⟨c2, _ | ⟨c3, _ | ⟨c4, rest⟩⟩⟩⟩
    · rfl
    · simp at hmod
    · simp at hmod
    · simp at hmod
    · rw [show chunks4 (c1 :: c2 :: c3 :: c4 :: rest)
        = [c1, c2, c3, c4] :: chunks4 rest from rfl]
      rw [List.map_cons, List.flatten_cons, List.map_append, List.flatten_append]
      rw [ih rest (by simp at hl; omega) (by simp at hmod; omega)]
      rfl

theorem flatten_good_stroke (tok : List Char) (h : goodStroke tok) :
    flatten_line ((chunks4 tok).map
        (fun ch => PyPoint.ipt ((tokenXY ch).1 : ℤ) ((tokenXY ch).2 : ℤ)))
      = String.mk tok := by
  obtain ⟨hall, hmod, hlen, hbnd, hnec⟩ := h
  have hmm : (chunks4 tok).map
        (fun ch => PyPoint.ipt ((tokenXY ch).1 : ℤ) ((tokenXY ch).2 : ℤ))
      = ((chunks4 tok).map (fun ch => (((tokenXY ch).1 : ℤ), ((tokenXY ch).2 : ℤ)))).map
          (fun p => PyPoint.ipt p.1 p.2) := by
    rw [List.map_map]
    rfl
  unfold flatten_line
  rw [hmm, flatten_go_refKeep]
  have hba : ∀ p ∈ (chunks4 tok).map
      (fun ch => (((tokenXY ch).1 : ℤ), ((tokenXY ch).2 : ℤ))), specInBounds p := by
    intro p hp
    rw [List.mem_map] at hp
    obtain ⟨ch, hch, rfl⟩ := hp
    obtain ⟨hx, hy⟩ := hbnd ch hch
    refine ⟨Int.natCast_nonneg _, ?_, Int.natCast_nonneg _, ?_⟩
    · show ((tokenXY ch).1 : ℤ) ≤ 800
      exact_mod_cast hx
    · show ((tokenXY ch).2 : ℤ) ≤ 600
      exact_mod_cast hy
  have hchain : List.Chain' (fun a b => a ≠ b)
      ((chunks4 tok).map (fun ch => (((tokenXY ch).1 : ℤ), ((tokenXY ch).2 : ℤ)))) := by
    rw [List.chain'_map]
    refine List.Chain'.imp ?_ (neChainB_chain _ hnec)
    intro a b hab he
    apply hab
    have e1 : ((tokenXY a).1 : ℤ) = ((tokenXY b).1 : ℤ) := congrArg Prod.fst he
    have e2 : ((tokenXY a).2 : ℤ) = ((tokenXY b).2 : ℤ) := congrArg Prod.snd he
    exact Prod.ext (by exact_mod_cast e1) (by exact_mod_cast e2)
  rw [refKeep_all _ none hba hchain (fun q h0 hq _ => Option.noConfusion hq)]
  rw [List.map_map]
  refine string_eq_of_data _ _ ?_
  rw [join_data]
  have hcongr : (chunks4 tok).map
        ((fun p : ℤ × ℤ => encodePoint p.1 p.2)
          ∘ (fun ch => (((tokenXY ch).1 : ℤ), ((tokenXY ch).2 : ℤ))))
      = (chunks4 tok).map (fun ch => [String.mk (ch.take 2), String.mk (ch.drop 2)]) := by
    refine List.map_congr_left (fun ch hch => ?_)
    obtain ⟨h4, hsub⟩ := chunks4_mem tok ch hch
    exact encode_chunk ch h4 (fun c hc => hall c (hsub c hc))
  rw [hcongr]
  exact chunks4_reassemble tok hmod

/-! ### The element loop over the namespaced elements of a good payload -/

theorem svg_loop_strokes (F : FloatOps ℚ) : ∀ toks : List (List Char),
    (∀ t ∈ toks, goodStroke t) →
    svg_loop F (toks.map (fun tok =>
        { tag := "\x7bhttp://www.w3.org/2000/svg\x7dpath", attrib := dataPathAttrib tok }))
      = Except.ok (toks.map (fun tok => String.mk tok)) := by
  intro toks
  induction toks with
  | nil => intro _; rfl
  | cons tok toks ih =>
    intro hg
    have hstroke := hg tok (by simp)
    rw [List.map_cons]
    conv_lhs => unfold svg_loop
    dsimp only
    rw [show namespace_match "\x7bhttp://www.w3.org/2000/svg\x7dpath" = some "path" from rfl]
    dsimp only
    rw [show compile_map F "path" = some compile_path from rfl]
    dsimp only
    rw [compile_path_stroke tok hstroke]
    dsimp only
    rw [show (dataPathAttrib tok).lookup "transform" = none from rfl]
    rw [transform_stroke]
    rw [ih (fun t ht => hg t (by simp [ht]))]
    dsimp only
    simp only [List.map_cons, List.map_nil]
    rw [flatten_good_stroke tok hstroke]
    rfl

theorem tree_namespaced (P : String) :
    withSvgNamespace (data_to_svg_tree P)
      = (pySplit P).map (fun tok =>
          { tag := "\x7bhttp://www.w3.org/2000/svg\x7dpath", attrib := dataPathAttrib tok }) := by
  unfold withSvgNamespace data_to_svg_tree
  rw [List.map_map]
  refine List.map_congr_left (fun tok _ => ?_)
  rfl

theorem list_intercalate_chars : ∀ (as : List (List Char)) (a : List Char),
    List.intercalate [' '] (a :: as) = a ++ (as.map (fun b => ' ' :: b)).flatten := by
  intro as
  induction as with
  | nil =>
    intro a
    simp [List.intercalate]
  | cons b bs ih =>
    intro a
    show (List.intersperse [' '] (a :: b :: bs)).flatten = _
    rw [List.intersperse_cons₂]
    rw [List.flatten_cons, List.flatten_cons]
    have hih : (List.intersperse [' '] (b :: bs)).flatten
        = b ++ (bs.map (fun c => ' ' :: c)).flatten := ih b
    rw [hih]
    simp [List.append_assoc]

theorem intercalate_mk_data : ∀ l : List (List Char),
    (String.intercalate " " (l.map (fun t => String.mk t))).data
      = List.intercalate [' '] l := by
  intro l
  cases l with
  | nil => rfl
  | cons a as =>
    show (String.intercalate.go (String.mk a) " " (as.map (fun t => String.mk t))).data = _
    rw [intercalate_go_data, list_intercalate_chars as a]
    rw [List.map_map]
    rfl

/-- C1, counterexample: the payload "00000101" matches `[a-z0-9 ]*`, but
`svg_to_data` applied to the element list parsed from `data_to_svg`'s
output raises AttributeError instead of returning the payload: the markup
declares no XML namespace, so the parsed tag is the bare `path`, on which
`NAMESPACE_P.match` returns None and the `.group` call raises.  The claimed
roundtrip `svg_to_data(data_to_svg(P)) == P` therefore fails for every
payload with at least one stroke. -/
theorem C1_counterexample :
    svg_to_data qOps (data_to_svg_tree "00000101") = Except.error PyErr.attributeError ∧
    svg_to_data qOps (data_to_svg_tree "00000101") ≠ Except.ok "00000101" := by
  refine ⟨rfl, ?_⟩
  intro hc
  rw [show svg_to_data qOps (data_to_svg_tree "00000101")
    = Except.error PyErr.attributeError from rfl] at hc
  exact Except.noConfusion hc

/-- C1, amended: once the produced path elements carry the SVG namespace
qualification (as they do in the Krita documents `svg_to_data` was written
against), the roundtrip holds for every payload that is the single-space
join of well-formed Strokes - runs of whole 4-character alphabet point
tokens, at least two per stroke, every decoded point within the 800x600
canvas, and no two consecutive points of a stroke equal.  The result holds
for any numeric backend F because the path pipeline never evaluates
pi/cos/sin and rounds only whole numbers. -/
theorem C1_amended_roundtrip (F : FloatOps ℚ) (P : String) (hP : goodPayload P) :
    svg_to_data F (withSvgNamespace (data_to_svg_tree P)) = Except.ok P := by
  obtain ⟨hjoin, hgood⟩ := hP
  unfold svg_to_data
  rw [tree_namespaced, svg_loop_strokes F (pySplit P) hgood]
  dsimp only
  congr 1
  refine string_eq_of_data _ _ ?_
  rw [intercalate_mk_data (pySplit P)]
  exact hjoin.symm

/-- Witness for the amended C1 at the payload "00000101" (the stroke
(0,0)-(1,1)). -/
theorem C1_amended_witness :
    goodPayload "00000101" ∧
    svg_to_data qOps (withSvgNamespace (data_to_svg_tree "00000101"))
      = Except.ok "00000101" :=
  ⟨by decide, C1_amended_roundtrip qOps "00000101" (by decide)⟩

end KGB
